import Mathlib

/-!
Verification of the mtfp-sim tyre-factory discrete-event simulation.

The repository's own code (src/main.py) builds routes, samples durations and
collects statistics on top of the simpy discrete-event kernel.  The kernel
itself (environment clock, event queue, finite-capacity resources) is not part
of the repository sources, so it is modelled here from the specification
(sections 4.1, 4.2, 4.4 of spec.md); everything route-, duration- and
statistics-related is translated directly from src/main.py.
-/

namespace MTFP


attribute [local semireducible] Rat.add Rat.sub Rat.mul Rat.inv


/-- Virtual time, modelled as a rational number. -/
abbrev VTime := ℚ


/-- Modelled from the spec (section 3, Event): a scheduled wake-up
(due time, sequence number, target process handle). -/
structure Event where
  due : VTime
  seq : ℕ
  pid : ℕ
deriving Repr, DecidableEq


/-- Modelled from the spec (section 3, Request): a pending claim on a
resource: requester process handle, allocation id and enqueue time. -/
structure WaitReq where
  reqId : ℕ
  pid : ℕ
  enq : VTime
deriving Repr, DecidableEq


/-- Modelled from the spec (sections 3 and 4.2): a finite-capacity resource
with a FIFO wait queue, standing in for simpy.Resource which is not part of
the repository sources.  `users` holds the request ids of current holders,
`queue` the pending requests in arrival order.  `grants` is a ghost log of
the enqueue times of requests, in the order in which they were granted; it
exists only to state fairness properties and is never read by the kernel. -/
structure Resource where
  capacity : ℕ
  users : List ℕ
  queue : List WaitReq
  grants : List VTime
deriving Repr, DecidableEq


/-- A fresh resource of a given capacity. -/
def Resource.mk0 (c : ℕ) : Resource := ⟨c, [], [], []⟩


/-- Modelled from the spec (section 4.2, request): grant immediately when
`in_use < capacity`, otherwise append to the FIFO wait queue. -/
def Resource.request (r : Resource) (reqId pid : ℕ) (now : VTime) :
    Resource × Bool :=
  if r.users.length < r.capacity then
    ({ r with users := r.users ++ [reqId], grants := r.grants ++ [now] }, true)
  else
    ({ r with queue := r.queue ++ [⟨reqId, pid, now⟩] }, false)


/-- Modelled from the spec (section 4.2, release, first half):
on success `in_use -= 1`. -/
def Resource.removeHolder (r : Resource) (reqId : ℕ) : Resource :=
  { r with users := r.users.erase reqId }


/-- Modelled from the spec (section 4.2, release, second half): if the wait
queue is non-empty, grant the head request (`in_use += 1`) and surface it so
that its process can be woken with a zero-delay event. -/
def Resource.grantHead (r : Resource) : Resource × Option WaitReq :=
  match r.queue with
  | [] => (r, none)
  | h :: t =>
      ({ r with users := r.users ++ [h.reqId], queue := t,
                grants := r.grants ++ [h.enq] }, some h)


/-- Modelled from the spec (section 4.2, release): fails with NotHeld (here:
`none`) if the request is not currently held; otherwise removes the holder
and grants the head of the wait queue, if any. -/
def Resource.release (r : Resource) (reqId : ℕ) :
    Option (Resource × Option WaitReq) :=
  if reqId ∈ r.users then some ((r.removeHolder reqId).grantHead) else none


/-- Duration specification of one stage: a fixed duration (used by the
spec's scenario tests), a station processing time sampled as in
`get_process_time`, or an oven curing time computed as in `get_curing_time`
(which consumes one random temperature choice). -/
inductive DurSpec where
  | const (d : ℚ)
  | station (name : String)
  | curing (ty sz : String)
deriving Repr, DecidableEq


/-- A stage of a route: the resource it occupies, the name under which its
waiting time is recorded, and its duration specification.  Mirrors the
`(resource, step_name)` pairs of `TyreFactory.process_tyre`. -/
structure StageDef where
  res : ℕ
  name : String
  dur : DurSpec
deriving Repr, DecidableEq


/-- The suspension points of one job process, following the body of
`TyreFactory.process_tyre`: not yet started, waiting for a resource grant,
waiting out a service time (timeout), finished, or aborted by a failed
curing-time lookup. -/
inductive Phase where
  | toStart (rest : List StageDef)
  | waitingGrant (s : StageDef) (rest : List StageDef)
      (arrival : VTime) (reqId : ℕ)
  | inService (s : StageDef) (rest : List StageDef) (reqId : ℕ)
  | done
  | failed
deriving Repr, DecidableEq


/-- One job process: the order fields it was created from, its route, its
current phase, its start time and the waiting times recorded so far
(the `stats.waiting_times` dict of `process_tyre`, in insertion order). -/
structure Proc where
  orderPid : String
  tyre_type : String
  size : String
  route : List StageDef
  phase : Phase
  startTime : VTime
  waits : List (String × ℚ)
deriving Repr, DecidableEq


/-- The ProductionStats record of src/main.py; the uuid serial number is
modelled by the process index. -/
structure ProductionStats where
  serial_number : ℕ
  pid : String
  start_time : VTime
  end_time : VTime
  waiting_times : List (String × ℚ)
  total_production_time : ℚ
deriving Repr, DecidableEq


/-- A placeholder process (out-of-range index). -/
def defaultProc : Proc :=
  ⟨"", "", "", [], Phase.done, 0, []⟩


/-- The whole simulation state: virtual clock, pending events, allocation
counters, resources and processes (as functions from indices), the list of
completed-production records, the random streams with their positions, and
the two fatal-error flags of the spec (section 7). -/
structure SimState where
  now : VTime
  events : List Event
  nextSeq : ℕ
  nextReq : ℕ
  resources : ℕ → Resource
  nres : ℕ
  procs : ℕ → Proc
  nprocs : ℕ
  production_stats : List ProductionStats
  uf : ℕ → ℚ
  uidx : ℕ
  cf : ℕ → ℕ
  cidx : ℕ
  invalidDelay : Bool
  notHeld : Bool


/-- Pointwise update of a function. -/
def upd {α : Type} (f : ℕ → α) (i : ℕ) (a : α) : ℕ → α :=
  fun j => if j = i then a else f j

/-- Insert an event into the time-ordered queue, after all events with an
earlier or equal due time; since sequence numbers increase with scheduling
order this keeps the queue sorted by (due, seq). -/
def insertEvent (e : Event) : List Event → List Event
  | [] => [e]
  | f :: fs => if e.due < f.due then e :: f :: fs else f :: insertEvent e fs


/-- Modelled from the spec (section 4.1): schedule a wake-up of `pid` at
`now + delay`; a negative delay is the fatal InvalidDelay error. -/
def scheduleAfter (st : SimState) (delay : ℚ) (pid : ℕ) : SimState :=
  if delay < 0 then { st with invalidDelay := true }
  else { st with
    events := insertEvent ⟨st.now + delay, st.nextSeq, pid⟩ st.events,
    nextSeq := st.nextSeq + 1 }


/-- The station time ranges of `TyreFactory.get_process_time`, with the
dict-get default (45, 55). -/
def time_ranges (name : String) : ℚ × ℚ :=
  if name = "wrap_inner_heal" then (40, 50)
  else if name = "apply_bead" then (45, 55)
  else if name = "wrap_heal" then (45, 55)
  else if name = "wrap_bond" then (45, 55)
  else if name = "wrap_soft" then (45, 55)
  else if name = "wrap_tread" then (45, 55)
  else if name = "press" then (120, 300)
  else (45, 55)


/-- `TyreFactory.get_process_time`: a uniform sample from the station's
range, converted to minutes.  The uniform draw `random.uniform(a, b)` is
modelled as `a + u * (b - a)` for a stream value `u` in [0, 1]. -/
def get_process_time (name : String) (u : ℚ) : ℚ :=
  let r := time_ranges name
  (r.1 + u * (r.2 - r.1)) / 60


/-- The `base_times` dict of `get_curing_time`; a missing key is a Python
KeyError, modelled as `none`. -/
def base_times (t : String) : Option ℚ :=
  if t = "Resilient-SoftBond" then some 120
  else if t = "Resilient-Basic" then some 100
  else if t = "Press-On" then some 90
  else none


/-- The `temp_adjustments` dict of `get_curing_time`. -/
def temp_adjustments (t : String) : Option ℚ :=
  if t = "optimal" then some 0
  else if t = "acceptable" then some 20
  else if t = "minimum" then some 40
  else none


/-- The `size_adjustments` dict of `get_curing_time`. -/
def size_adjustments (s : String) : Option ℚ :=
  if s = "Small" then some 0
  else if s = "Medium" then some 15
  else if s = "Large" then some 30
  else none


/-- `TyreFactory.get_curing_time`: base time by tyre type plus temperature
and size adjustments; any missing dict key fails the computation. -/
def get_curing_time (ty sz tmp : String) : Option ℚ :=
  match base_times ty, temp_adjustments tmp, size_adjustments sz with
  | some b, some ta, some sa => some (b + ta + sa)
  | _, _, _ => none


/-- The temperature range drawn by `random.choice`, from a choice-stream
value. -/
def tempName (i : ℕ) : String :=
  if i % 3 = 0 then "optimal" else if i % 3 = 1 then "acceptable"
  else "minimum"


/-- Sample the duration of a stage, consuming random-stream positions as
`process_tyre` does: one uniform draw per station time, one choice draw per
curing temperature.  A failed curing lookup yields `none`. -/
def sampleDur (st : SimState) : DurSpec → Option ℚ × SimState
  | DurSpec.const d => (some d, st)
  | DurSpec.station n =>
      (some (get_process_time n (st.uf st.uidx)), { st with uidx := st.uidx + 1 })
  | DurSpec.curing ty sz =>
      (get_curing_time ty sz (tempName (st.cf st.cidx)),
       { st with cidx := st.cidx + 1 })


/-- Read a resource by index. -/
def getRes (st : SimState) (i : ℕ) : Resource := st.resources i


/-- Write a resource by index. -/
def setRes (st : SimState) (i : ℕ) (r : Resource) : SimState :=
  { st with resources := upd st.resources i r }


/-- Read a process by index. -/
def getProc (st : SimState) (i : ℕ) : Proc := st.procs i


/-- Write a process by index. -/
def setProc (st : SimState) (i : ℕ) (p : Proc) : SimState :=
  { st with procs := upd st.procs i p }


/-- Change only the phase of a process. -/
def setPhase (st : SimState) (i : ℕ) (ph : Phase) : SimState :=
  setProc st i { getProc st i with phase := ph }


/-- Record a waiting time, as `stats.waiting_times[step_name] = waiting_time`
does (each step name occurs once per route, so appending models the dict
assignment). -/
def recordWait (st : SimState) (i : ℕ) (name : String) (w : ℚ) : SimState :=
  let p := getProc st i
  setProc st i { p with waits := p.waits ++ [(name, w)] }


/-- The body of `process_tyre` after a grant: record the waiting time,
sample the stage duration and suspend on a timeout for it (a failed curing
lookup aborts the process instead). -/
def afterGrant (st : SimState) (pid : ℕ) (s : StageDef) (rest : List StageDef)
    (arrival : VTime) (reqId : ℕ) : SimState :=
  let st1 := recordWait st pid s.name (st.now - arrival)
  match sampleDur st1 s.dur with
  | (none, st2) => setPhase st2 pid Phase.failed
  | (some d, st2) => scheduleAfter (setPhase st2 pid (Phase.inService s rest reqId)) d pid


/-- The head of the `process_tyre` stage loop: with no stages left, record
completion (`stats.end_time`, `total_production_time`) and append the stats
record; otherwise note the arrival time and request the stage's resource,
continuing at once on an immediate grant and parking in the wait queue
otherwise. -/
def startStages (st : SimState) (pid : ℕ) (rest : List StageDef) : SimState :=
  match rest with
  | [] =>
      let p := getProc st pid
      let st1 := setPhase st pid Phase.done
      { st1 with production_stats := st1.production_stats ++
          [⟨pid, p.orderPid, p.startTime, st.now, p.waits, st.now - p.startTime⟩] }
  | s :: rest1 =>
      let arrival := st.now
      let reqId := st.nextReq
      let st1 := { st with nextReq := st.nextReq + 1 }
      let rg := (getRes st1 s.res).request reqId pid arrival
      let st2 := setRes st1 s.res rg.1
      if rg.2 then afterGrant st2 pid s rest1 arrival reqId
      else setPhase st2 pid (Phase.waitingGrant s rest1 arrival reqId)


/-- Resume the process a fired event targets: a just-created process records
its start time and enters the stage loop; a process whose grant wake-up
fired continues after the grant; a process whose service timeout fired
releases its resource (waking the new head of the wait queue with a
zero-delay event, as the spec's release does) and moves to the next stage.
A release of a request that is not held is the fatal NotHeld error. -/
def handleEvent (st : SimState) (pid : ℕ) : SimState :=
  match (getProc st pid).phase with
  | Phase.toStart rest =>
      let st1 := setProc st pid { getProc st pid with startTime := st.now }
      startStages st1 pid rest
  | Phase.waitingGrant s rest arrival reqId => afterGrant st pid s rest arrival reqId
  | Phase.inService s rest reqId =>
      match (getRes st s.res).release reqId with
      | none => { st with notHeld := true }
      | some (r1, none) => startStages (setRes st s.res r1) pid rest
      | some (r1, some h) =>
          startStages (scheduleAfter (setRes st s.res r1) 0 h.pid) pid rest
  | _ => st


/-- Modelled from the spec (section 4.1): the driver loop pops the earliest
event (ties broken by scheduling order), advances the clock to its due time
and resumes its target, stopping when the queue is empty, the next due time
exceeds the horizon, or a fatal error flag is set.  Fuel makes the recursion
structural; any sufficiently large fuel reaches the fixed point. -/
def runLoop (horizon : ℚ) : ℕ → SimState → SimState
  | 0, st => st
  | fuel + 1, st =>
      if st.invalidDelay || st.notHeld then st
      else
        match st.events with
        | [] => st
        | e :: rest =>
            if e.due ≤ horizon then
              runLoop horizon fuel
                (handleEvent { st with now := e.due, events := rest } e.pid)
            else st


/-- The TyreOrder record of src/main.py. -/
structure TyreOrder where
  pid : String
  tyre_type : String
  brand : String
  tread_pattern : String
  size : String
  quantity : ℕ
deriving Repr, DecidableEq


/-- Resource indices, in the declaration order of `TyreFactory.__init__`:
0 wrap_inner_heal, 1 apply_bead, 2 wrap_heal, 3 resilient_bond,
4 press_on_bond, 5 wrap_soft, 6 wrap_tread, 7 press, 8 curing_ovens. -/
def factoryCapacities : List ℕ := [1, 1, 1, 1, 1, 1, 1, 1, 12]


/-- The station step list chosen by `process_tyre` for each tyre type:
the full Resilient-SoftBond flow, the reduced Resilient-Basic flow, and the
Press-On flow for every other type (the `else` branch). -/
def steps (ty : String) : List StageDef :=
  if ty = "Resilient-SoftBond" then
    [⟨0, "wrap_inner_heal", DurSpec.station "wrap_inner_heal"⟩,
     ⟨1, "apply_bead", DurSpec.station "apply_bead"⟩,
     ⟨2, "wrap_heal", DurSpec.station "wrap_heal"⟩,
     ⟨3, "wrap_bond", DurSpec.station "wrap_bond"⟩,
     ⟨5, "wrap_soft", DurSpec.station "wrap_soft"⟩,
     ⟨6, "wrap_tread", DurSpec.station "wrap_tread"⟩,
     ⟨7, "press", DurSpec.station "press"⟩]
  else if ty = "Resilient-Basic" then
    [⟨0, "wrap_inner_heal", DurSpec.station "wrap_inner_heal"⟩,
     ⟨1, "apply_bead", DurSpec.station "apply_bead"⟩,
     ⟨2, "wrap_heal", DurSpec.station "wrap_heal"⟩,
     ⟨6, "wrap_tread", DurSpec.station "wrap_tread"⟩,
     ⟨7, "press", DurSpec.station "press"⟩]
  else
    [⟨4, "wrap_bond", DurSpec.station "wrap_bond"⟩,
     ⟨5, "wrap_soft", DurSpec.station "wrap_soft"⟩,
     ⟨6, "wrap_tread", DurSpec.station "wrap_tread"⟩,
     ⟨7, "press", DurSpec.station "press"⟩]


/-- The Press-On step list (the `else` branch of `process_tyre`). -/
def press_on_steps : List StageDef :=
  [⟨4, "wrap_bond", DurSpec.station "wrap_bond"⟩,
   ⟨5, "wrap_soft", DurSpec.station "wrap_soft"⟩,
   ⟨6, "wrap_tread", DurSpec.station "wrap_tread"⟩,
   ⟨7, "press", DurSpec.station "press"⟩]


/-- The whole route of one tyre: the station steps followed by the curing
step on the 12-oven group. -/
def tyreRoute (ty sz : String) : List StageDef :=
  steps ty ++ [⟨8, "curing", DurSpec.curing ty sz⟩]


/-- One process per produced tyre unit, as `run_simulation` creates them. -/
def mkProc (o : TyreOrder) : Proc :=
  ⟨o.pid, o.tyre_type, o.size, tyreRoute o.tyre_type o.size,
   Phase.toStart (tyreRoute o.tyre_type o.size), 0, []⟩


/-- Expand orders into one process per unit, in order, as the nested loops
of `run_simulation` do. -/
def expandOrders (orders : List TyreOrder) : List Proc :=
  (orders.map (fun o => List.replicate o.quantity (mkProc o))).flatten


/-- The initial simulation state: fresh resources, the given processes, and
one creation event per process at time 0, in creation order (this is what
`env.process(...)` does; creation order defines the tie-breaking sequence
numbers). -/
def initState (procs : List Proc) (caps : List ℕ) (uf : ℕ → ℚ) (cf : ℕ → ℕ) :
    SimState :=
  let st0 : SimState :=
    { now := 0, events := [], nextSeq := 0, nextReq := 0,
      resources := fun i => Resource.mk0 (caps.getD i 0), nres := caps.length,
      procs := fun i => procs.getD i defaultProc, nprocs := procs.length,
      production_stats := [], uf := uf, uidx := 0, cf := cf, cidx := 0,
      invalidDelay := false, notHeld := false }
  (List.range procs.length).foldl (fun st i => scheduleAfter st 0 i) st0


/-- `run_simulation`: build the factory, create one process per ordered
unit, and run the event loop up to the horizon. -/
def run_simulation (orders : List TyreOrder) (simulation_time : ℚ)
    (fuel : ℕ) (uf : ℕ → ℚ) (cf : ℕ → ℕ) : SimState :=
  runLoop simulation_time fuel (initState (expandOrders orders) factoryCapacities uf cf)

/-! ## Resource and event-queue invariants -/


/-- The per-resource invariant: at most `capacity` holders; the wait queue is
non-empty only when the resource is full; the grant log followed by the
pending enqueue times is non-decreasing; and every logged or pending enqueue
time is in the past. -/
def ResInv (now : VTime) (r : Resource) : Prop :=
  r.users.length ≤ r.capacity ∧
  (r.queue ≠ [] → r.users.length = r.capacity) ∧
  List.Chain' (· ≤ ·) (r.grants ++ r.queue.map WaitReq.enq) ∧
  (∀ t ∈ r.grants ++ r.queue.map WaitReq.enq, t ≤ now)


/-- The kernel invariant: pending events are due in the future and sorted by
due time, and every resource satisfies its invariant. -/
def InvA (st : SimState) : Prop :=
  (∀ e ∈ st.events, st.now ≤ e.due) ∧
  st.events.Pairwise (fun a b => a.due ≤ b.due) ∧
  (∀ i, ResInv st.now (st.resources i))

/-- The number of simultaneous holders of a resource. -/
def Resource.in_use (r : Resource) : ℕ := r.users.length

/-! ## Capacities never change during a run -/


/-- Capacity constancy: every resource keeps the capacity it was built
with. -/
def CapEq (f : ℕ → ℕ) (st : SimState) : Prop :=
  ∀ i, (st.resources i).capacity = f i

/-- A zero uniform stream, used to instantiate witnesses. -/
def zeroUStream : ℕ → ℚ := fun _ => 0


/-- A zero choice stream, used to instantiate witnesses. -/
def zeroCStream : ℕ → ℕ := fun _ => 0


/-- A concrete resource used to witness the release clause of C1. -/
def c1res : Resource := ⟨1, [0], [⟨1, 1, 2⟩], [0]⟩

/-- A concrete resource used to witness C7. -/
def c7res : Resource := ⟨2, [5, 6], [], []⟩

/-- The stages a process has still to traverse, as recorded in its phase. -/
def Phase.restOf : Phase → List StageDef
  | Phase.toStart rest => rest
  | Phase.waitingGrant s rest _ _ => s :: rest
  | Phase.inService s rest _ => s :: rest
  | Phase.done => []
  | Phase.failed => []


/-- The remaining stages recorded in a process's phase are consistent with
its route: a not-yet-started process still has its whole route ahead, and a
waiting or in-service process's remaining stages are a suffix of its
route. -/
def phaseRoute (p : Proc) : Prop :=
  match p.phase with
  | Phase.toStart rest => rest = p.route
  | Phase.waitingGrant s rest _ _ => (s :: rest) <:+ p.route
  | Phase.inService s rest _ => (s :: rest) <:+ p.route
  | Phase.done => True
  | Phase.failed => True


/-- A duration specification whose sampling cannot fail: station and
constant durations always sample, a curing duration needs its tyre type and
size to be known to the lookup tables. -/
def durDefined : DurSpec → Prop
  | DurSpec.const _ => True
  | DurSpec.station _ => True
  | DurSpec.curing ty sz =>
      (base_times ty).isSome = true ∧ (size_adjustments sz).isSome = true

/-- The fields of a process that the kernel never mutates: its order id,
tyre type, size and route. -/
def sameJob (p q : Proc) : Prop :=
  p.orderPid = q.orderPid ∧ p.tyre_type = q.tyre_type ∧ p.size = q.size ∧
  p.route = q.route

/-- The process-bookkeeping invariant: every recorded stats entry belongs to
a finished process; remaining stages are a suffix of the route; an
in-service stage always has a well-defined duration; a finished process's
final (curing) stage had a well-defined duration; and every recorded total
production time is the difference of end and start times. -/
def InvB (st : SimState) : Prop :=
  (∀ s ∈ st.production_stats, (st.procs s.serial_number).phase = Phase.done) ∧
  (∀ pid, phaseRoute (st.procs pid)) ∧
  (∀ pid s rest rq, (st.procs pid).phase = Phase.inService s rest rq →
      durDefined s.dur) ∧
  (∀ pid s, (st.procs pid).phase = Phase.done →
      (st.procs pid).route.getLast? = some s → durDefined s.dur) ∧
  (∀ s ∈ st.production_stats, s.total_production_time = s.end_time - s.start_time)


/-- The per-process conditions an initial process must meet. -/
def ProcInit (p : Proc) : Prop :=
  phaseRoute p ∧
  (∀ s rest rq, p.phase = Phase.inService s rest rq → durDefined s.dur) ∧
  (p.phase = Phase.done → ∀ s, p.route.getLast? = some s → durDefined s.dur)

/-- `statistics.mean`: the sum divided by the length. -/
def pyMean (l : List ℚ) : ℚ := l.sum / l.length


/-- Python `min` over a non-empty list (0 on the empty list, on which the
source never calls it). -/
def pyMin : List ℚ → ℚ
  | [] => 0
  | x :: xs => xs.foldl min x


/-- Python `max` over a non-empty list. -/
def pyMax : List ℚ → ℚ
  | [] => 0
  | x :: xs => xs.foldl max x


/-- `stat.pid.split('.')[0]`: the tyre-type key of a production id — the
prefix of the pid up to the first dot (the whole pid when it has none). -/
def kindOf (pid : String) : String :=
  String.mk (pid.data.takeWhile (fun c => c != '.'))


/-- The dict-building step used by `get_production_insights`: append `v` to
the entry of key `k`, creating the entry when absent (insertion order). -/
def addToGroup (m : List (String × List ℚ)) (k : String) (v : ℚ) :
    List (String × List ℚ) :=
  match m with
  | [] => [(k, [v])]
  | (k1, vs) :: rest =>
      if k1 = k then (k1, vs ++ [v]) :: rest
      else (k1, vs) :: addToGroup rest k v


/-- Dict lookup on an insertion-ordered association list. -/
def lookupKey {α : Type} (m : List (String × α)) (k : String) : Option α :=
  match m with
  | [] => none
  | (k1, v) :: rest => if k1 = k then some v else lookupKey rest k


/-- The `type_stats` dict of `get_production_insights`: production times
grouped by the tyre-type prefix of the pid. -/
def type_stats (l : List ProductionStats) : List (String × List ℚ) :=
  l.foldl (fun m s => addToGroup m (kindOf s.pid) s.total_production_time) []


/-- One entry of `tyre_type_statistics`. -/
structure TypeAgg where
  count : ℕ
  avg_time : ℚ
  min_time : ℚ
  max_time : ℚ
deriving Repr, DecidableEq


/-- The `type_averages` dict comprehension. -/
def type_averages (ts : List (String × List ℚ)) : List (String × TypeAgg) :=
  ts.map (fun kv => (kv.1, ⟨kv.2.length, pyMean kv.2, pyMin kv.2, pyMax kv.2⟩))


/-- The `station_waiting_times` dict: waiting times grouped by station. -/
def station_waiting_times (l : List ProductionStats) :
    List (String × List ℚ) :=
  l.foldl (fun m s =>
    s.waiting_times.foldl (fun m2 p => addToGroup m2 p.1 p.2) m) []


/-- One entry of `station_statistics`. -/
structure StationAgg where
  avg_wait : ℚ
  max_wait : ℚ
  min_wait : ℚ
  total_wait : ℚ
deriving Repr, DecidableEq


/-- The `station_stats` dict comprehension. -/
def station_statistics (ts : List (String × List ℚ)) :
    List (String × StationAgg) :=
  ts.map (fun kv => (kv.1, ⟨pyMean kv.2, pyMax kv.2, pyMin kv.2, kv.2.sum⟩))


/-- The dictionary returned by `get_production_insights`. -/
structure Insights where
  total_tyres_produced : ℕ
  avg_production_time : ℚ
  max_production_time : ℚ
  min_production_time : ℚ
  total_simulation_time : ℚ
  tyre_type_statistics : List (String × TypeAgg)
  station_statistics : List (String × StationAgg)
deriving Repr, DecidableEq


/-- The insights as a function of the completed-production records and the
simulation clock alone (`none` models the "No production data available"
early return). -/
def insightsOf (stats : List ProductionStats) (now : ℚ) : Option Insights :=
  if stats = [] then none
  else
    let allTimes := stats.map ProductionStats.total_production_time
    some ⟨stats.length, pyMean allTimes, pyMax allTimes, pyMin allTimes, now,
      type_averages (type_stats stats),
      station_statistics (station_waiting_times stats)⟩


/-- `TyreFactory.get_production_insights`. -/
def get_production_insights (st : SimState) : Option Insights :=
  insightsOf st.production_stats st.now

/-! ## Scenario material (spec section 8) -/


/-- A route with a single fixed-duration stage on resource 0, used by the
spec's Conservation and oven scenarios. -/
def singleStage (d : ℚ) : List StageDef := [⟨0, "s", DurSpec.const d⟩]


/-- A job created at time 0 whose route is `singleStage d`. -/
def scenJob (d : ℚ) : Proc :=
  ⟨"job", "T", "S", singleStage d, Phase.toStart (singleStage d), 0, []⟩

/-- The expected outcome of the oven scenario: 12 jobs complete at 5 with
no wait, 8 jobs wait 5 and complete at 10. -/
def ovenExpected : List ProductionStats :=
  (List.range 20).map (fun i =>
    if i < 12 then ⟨i, "job", 0, 5, [("s", 0)], 5⟩
    else ⟨i, "job", 0, 10, [("s", 5)], 10⟩)

/-- A concrete order used to instantiate witnesses. -/
def pressOnOrder : TyreOrder := ⟨"102.1", "Press-On", "b", "t", "Small", 2⟩

/-- A duration specification that can never produce a negative sample. -/
def DurSafe : DurSpec → Prop
  | DurSpec.const d => 0 ≤ d
  | DurSpec.station _ => True
  | DurSpec.curing _ _ => True


/-- The uniform stream delivers values in the unit interval, as
`random.uniform` scaling assumes. -/
def UBound (uf : ℕ → ℚ) : Prop := ∀ n, 0 ≤ uf n ∧ uf n ≤ 1


/-- The InvalidDelay flag is unset, the uniform stream is the given one,
and every stage still ahead of any process has a safe duration. -/
def SafeState (uf : ℕ → ℚ) (st : SimState) : Prop :=
  st.invalidDelay = false ∧ st.uf = uf ∧
  ∀ pid, ∀ s ∈ ((st.procs pid).phase).restOf, DurSafe s.dur

/-- A concrete order with an unknown tyre type, used to witness C10. -/
def xOrder : TyreOrder := ⟨"999.1", "X", "b", "t", "Small", 1⟩

/-- Concrete stats records used to witness C8. -/
def c8list : List ProductionStats :=
  [⟨0, "101.1", 0, 10, [], 10⟩, ⟨1, "102.1", 0, 5, [], 5⟩,
   ⟨2, "101.2", 2, 8, [], 6⟩]

/-! ## The Conservation scenario: N simultaneous jobs on one station -/


attribute [ext] SimState


/-- The single stage of the Conservation scenario. -/
def s0stage (d : ℚ) : StageDef := ⟨0, "s", DurSpec.const d⟩


/-- The expected completed-production record of job `i`: no wait for job 0,
wait `i·d` for job `i`, completion at `(i+1)·d`. -/
def statOf (d : ℚ) (i : ℕ) : ProductionStats :=
  ⟨i, "job", 0, ((i : ℚ) + 1) * d, [("s", (i : ℚ) * d)], ((i : ℚ) + 1) * d⟩


/-- Job `i` after completing its stage. -/
def doneJob (d : ℚ) (i : ℕ) : Proc :=
  ⟨"job", "T", "S", [s0stage d], Phase.done, 0, [("s", (i : ℚ) * d)]⟩


/-- Job `i` while occupying the station. -/
def svcJob (d : ℚ) (i : ℕ) : Proc :=
  ⟨"job", "T", "S", [s0stage d], Phase.inService (s0stage d) [] i, 0,
   [("s", (i : ℚ) * d)]⟩


/-- Job `i` while parked in the station's wait queue. -/
def waitJob (d : ℚ) (i : ℕ) : Proc :=
  ⟨"job", "T", "S", [s0stage d], Phase.waitingGrant (s0stage d) [] 0 i, 0, []⟩

/-- The helper state the Conservation proof starts from: the literal value
of the initial state of N single-stage jobs on one station. -/
def T0State (N : ℕ) (d : ℚ) : SimState :=
  { now := 0,
    events := (List.range' 0 N).map (fun i => ⟨0, i, i⟩),
    nextSeq := N, nextReq := 0,
    resources := fun i => Resource.mk0 ([1].getD i 0),
    nres := 1,
    procs := fun i => if i < N then scenJob d else defaultProc,
    nprocs := N,
    production_stats := [], uf := zeroUStream, uidx := 0,
    cf := zeroCStream, cidx := 0,
    invalidDelay := false, notHeld := false }

/-- The state of the Conservation run after the creation events of jobs
`0 … j-1` have fired (`1 ≤ j ≤ N`): job 0 is in service until `d`, jobs
`1 … j-1` are queued, jobs `j … N-1` are still unstarted. -/
def TState (N : ℕ) (d : ℚ) (j : ℕ) : SimState :=
  { now := 0,
    events := (List.range' j (N - j)).map (fun i => ⟨0, i, i⟩) ++ [⟨d, N, 0⟩],
    nextSeq := N + 1, nextReq := j,
    resources := fun i =>
      if i = 0 then ⟨1, [0], (List.range' 1 (j - 1)).map (fun i => ⟨i, i, 0⟩), [0]⟩
      else Resource.mk0 0,
    nres := 1,
    procs := fun i =>
      if i = 0 then svcJob d 0
      else if i < j then waitJob d i
      else if i < N then scenJob d
      else defaultProc,
    nprocs := N,
    production_stats := [], uf := zeroUStream, uidx := 0,
    cf := zeroCStream, cidx := 0,
    invalidDelay := false, notHeld := false }

/-- The Conservation run while job `k-1` occupies the station
(`1 ≤ k ≤ N`): jobs `0 … k-2` are finished, job `k-1` runs until `k·d`,
jobs `k … N-1` are queued. -/
def SState (N : ℕ) (d : ℚ) (k : ℕ) : SimState :=
  { now := ((k : ℚ) - 1) * d,
    events := [⟨(k : ℚ) * d, N + 2 * k - 2, k - 1⟩],
    nextSeq := N + 2 * k - 1, nextReq := N,
    resources := fun i =>
      if i = 0 then
        ⟨1, [k - 1], (List.range' k (N - k)).map (fun i => ⟨i, i, 0⟩),
          List.replicate k 0⟩
      else Resource.mk0 0,
    nres := 1,
    procs := fun i =>
      if i < k - 1 then doneJob d i
      else if i = k - 1 then svcJob d (k - 1)
      else if i < N then waitJob d i
      else defaultProc,
    nprocs := N,
    production_stats := (List.range (k - 1)).map (statOf d),
    uf := zeroUStream, uidx := 0, cf := zeroCStream, cidx := 0,
    invalidDelay := false, notHeld := false }


/-- The Conservation run just after job `k-1` released the station at
`k·d` (`1 ≤ k ≤ N-1`): job `k` has been granted and its zero-delay wake-up
is pending. -/
def UState (N : ℕ) (d : ℚ) (k : ℕ) : SimState :=
  { now := (k : ℚ) * d,
    events := [⟨(k : ℚ) * d, N + 2 * k - 1, k⟩],
    nextSeq := N + 2 * k, nextReq := N,
    resources := fun i =>
      if i = 0 then
        ⟨1, [k], (List.range' (k + 1) (N - (k + 1))).map (fun i => ⟨i, i, 0⟩),
          List.replicate (k + 1) 0⟩
      else Resource.mk0 0,
    nres := 1,
    procs := fun i =>
      if i < k then doneJob d i
      else if i < N then waitJob d i
      else defaultProc,
    nprocs := N,
    production_stats := (List.range k).map (statOf d),
    uf := zeroUStream, uidx := 0, cf := zeroCStream, cidx := 0,
    invalidDelay := false, notHeld := false }


theorem upd_same {α : Type} (f : ℕ → α) (i : ℕ) (a : α) : upd f i a i = a := by
  simp [upd]


theorem upd_other {α : Type} (f : ℕ → α) (i j : ℕ) (a : α) (h : j ≠ i) :
    upd f i a j = f j := by
  simp [upd, h]



theorem mem_insertEvent {e x : Event} :
    ∀ {l : List Event}, x ∈ insertEvent e l ↔ x = e ∨ x ∈ l := by
  intro l
  induction l with
  | nil => simp [insertEvent]
  | cons f fs ih =>
      simp only [insertEvent]
      split
      · simp
      · simp only [List.mem_cons, ih]
        tauto


theorem pairwise_insertEvent {e : Event} :
    ∀ {l : List Event}, l.Pairwise (fun a b => a.due ≤ b.due) →
    (insertEvent e l).Pairwise (fun a b => a.due ≤ b.due) := by
  intro l
  induction l with
  | nil => simp [insertEvent]
  | cons f fs ih =>
      intro hp
      rw [List.pairwise_cons] at hp
      simp only [insertEvent]
      split
      · rename_i hlt
        refine List.Pairwise.cons ?_ (List.Pairwise.cons hp.1 hp.2)
        intro b hb
        rcases List.mem_cons.mp hb with h | h
        · exact le_of_lt (h ▸ hlt)
        · exact le_of_lt (lt_of_lt_of_le hlt (hp.1 b h))
      · rename_i hge
        refine List.Pairwise.cons ?_ (ih hp.2)
        intro b hb
        rcases mem_insertEvent.mp hb with h | h
        · exact h ▸ le_of_not_lt hge
        · exact hp.1 b h


theorem ResInv.mono {now now' : VTime} {r : Resource} (h : ResInv now r)
    (hle : now ≤ now') : ResInv now' r :=
  ⟨h.1, h.2.1, h.2.2.1, fun t ht => le_trans (h.2.2.2 t ht) hle⟩


theorem resInv_mk0 (now : VTime) (c : ℕ) : ResInv now (Resource.mk0 c) := by
  refine ⟨by simp [Resource.mk0], by simp [Resource.mk0], ?_, ?_⟩ <;>
    simp [Resource.mk0]


/-- `request` preserves the resource invariant (the enqueue time is the
current instant). -/
theorem resInv_request {now : VTime} {r : Resource} {reqId pid : ℕ}
    (h : ResInv now r) : ResInv now (r.request reqId pid now).1 := by
  obtain ⟨hcap, hfull, hchain, hbound⟩ := h
  unfold Resource.request
  split
  · rename_i hlt
    have hq : r.queue = [] := by
      by_contra hne
      exact absurd (hfull hne) (Nat.ne_of_lt hlt)
    refine ⟨?_, ?_, ?_, ?_⟩
    · simpa using hlt
    · simp [hq]
    · simp only [hq, List.map_nil, List.append_nil] at hchain hbound ⊢
      exact List.Chain'.append hchain (List.chain'_singleton now)
        (by
          intro x hx y hy
          simp only [List.head?_cons, Option.mem_def, Option.some.injEq] at hy
          subst hy
          exact hbound x (by
            rcases List.mem_getLast?_eq_getLast hx with ⟨hne, hx'⟩
            exact hx' ▸ List.getLast_mem hne))
    · intro t ht
      simp only [hq, List.map_nil, List.append_nil, List.mem_append,
        List.mem_singleton] at ht
      rcases ht with ht | ht
      · exact hbound t (by simp [hq, ht])
      · exact le_of_eq ht
  · rename_i hge
    refine ⟨hcap, fun _ => Nat.le_antisymm hcap (le_of_not_lt hge), ?_, ?_⟩
    · simp only [List.map_append, List.map_cons, List.map_nil]
      rw [← List.append_assoc]
      exact List.Chain'.append hchain (List.chain'_singleton now)
        (by
          intro x hx y hy
          simp only [List.head?_cons, Option.mem_def, Option.some.injEq] at hy
          subst hy
          exact hbound x (by
            rcases List.mem_getLast?_eq_getLast hx with ⟨hne, hx'⟩
            exact hx' ▸ List.getLast_mem hne))
    · intro t ht
      simp only [List.map_append, List.map_cons, List.map_nil, ← List.append_assoc,
        List.mem_append, List.mem_singleton] at ht
      rcases ht with ht | ht
      · exact hbound t (by simpa using ht)
      · exact le_of_eq ht


/-- `release` preserves the resource invariant. -/
theorem resInv_release {now : VTime} {r r' : Resource} {reqId : ℕ}
    {g : Option WaitReq} (h : ResInv now r)
    (hrel : r.release reqId = some (r', g)) : ResInv now r' := by
  obtain ⟨hcap, hfull, hchain, hbound⟩ := h
  unfold Resource.release at hrel
  split at hrel
  · rename_i hmem
    rw [Option.some_inj] at hrel
    unfold Resource.grantHead Resource.removeHolder at hrel
    rcases hq : r.queue with _ | ⟨w, t⟩
    · simp only [hq] at hrel
      cases hrel
      have : (r.users.erase reqId).length ≤ r.users.length :=
        List.length_erase_le reqId r.users
      refine ⟨le_trans this hcap, by simp [hq], by simpa [hq] using hchain, ?_⟩
      intro x hx
      exact hbound x (by simpa [hq] using hx)
    · simp only [hq] at hrel
      cases hrel
      have herase : (r.users.erase reqId).length + 1 = r.users.length :=
        List.length_erase_add_one hmem
      have hfull' : r.users.length = r.capacity := hfull (by simp [hq])
      constructor
      · simp only [List.length_append, List.length_cons, List.length_nil]
        omega
      constructor
      · intro _
        simp only [List.length_append, List.length_cons, List.length_nil]
        omega
      constructor
      · have : r.grants ++ [w.enq] ++ t.map WaitReq.enq =
            r.grants ++ (r.queue.map WaitReq.enq) := by
          simp [hq]
        rw [this]
        exact hchain
      · intro x hx
        refine hbound x ?_
        have : r.grants ++ [w.enq] ++ t.map WaitReq.enq =
            r.grants ++ (r.queue.map WaitReq.enq) := by
          simp [hq]
        rw [← this]
        exact hx
  · exact absurd hrel (by simp)


/-- `scheduleAfter` preserves the kernel invariant (a negative delay only
sets the fatal flag and schedules nothing). -/
theorem invA_scheduleAfter {st : SimState} {d : ℚ} {pid : ℕ} (h : InvA st) :
    InvA (scheduleAfter st d pid) := by
  obtain ⟨hev, hpair, hres⟩ := h
  unfold scheduleAfter
  split
  · exact ⟨hev, hpair, hres⟩
  · rename_i hge
    refine ⟨?_, ?_, hres⟩
    · intro e he
      rcases mem_insertEvent.mp he with he | he
      · subst he
        simp only
        linarith [le_of_not_lt hge]
      · exact hev e he
    · exact pairwise_insertEvent hpair


theorem invA_setRes {st : SimState} {i : ℕ} {r : Resource} (h : InvA st)
    (hr : ResInv st.now r) : InvA (setRes st i r) := by
  obtain ⟨hev, hpair, hres⟩ := h
  refine ⟨hev, hpair, ?_⟩
  intro j
  by_cases hj : j = i
  · subst hj
    simpa [setRes, upd] using hr
  · simpa [setRes, upd, hj] using hres j


theorem invA_setProc {st : SimState} {i : ℕ} {p : Proc} (h : InvA st) :
    InvA (setProc st i p) := h


theorem invA_setPhase {st : SimState} {i : ℕ} {ph : Phase} (h : InvA st) :
    InvA (setPhase st i ph) := h


theorem invA_recordWait {st : SimState} {i : ℕ} {n : String} {w : ℚ}
    (h : InvA st) : InvA (recordWait st i n w) := h


theorem invA_sampleDur_snd {st : SimState} (dur : DurSpec) (h : InvA st) :
    InvA (sampleDur st dur).2 := by
  cases dur <;> exact h


theorem invA_afterGrant {st : SimState} {pid : ℕ} {s : StageDef}
    {rest : List StageDef} {arrival : VTime} {reqId : ℕ} (h : InvA st) :
    InvA (afterGrant st pid s rest arrival reqId) := by
  unfold afterGrant
  have h1 : InvA (recordWait st pid s.name (st.now - arrival)) :=
    invA_recordWait h
  generalize recordWait st pid s.name (st.now - arrival) = st1 at h1 ⊢
  have h2 := @invA_sampleDur_snd st1 s.dur h1
  rcases hs : sampleDur st1 s.dur with ⟨od, st2⟩
  rw [hs] at h2
  simp only [hs]
  cases od with
  | none => exact invA_setPhase h2
  | some d => exact invA_scheduleAfter (invA_setPhase h2)


theorem invA_startStages {st : SimState} {pid : ℕ} {rest : List StageDef}
    (h : InvA st) : InvA (startStages st pid rest) := by
  cases rest with
  | nil => exact h
  | cons s rest1 =>
      simp only [startStages]
      have h1 : InvA { st with nextReq := st.nextReq + 1 } := h
      rcases hrg : (getRes { st with nextReq := st.nextReq + 1 } s.res).request
          st.nextReq pid st.now with ⟨r', g⟩
      have hr' : ResInv st.now r' := by
        have := @resInv_request st.now
          (getRes { st with nextReq := st.nextReq + 1 } s.res)
          st.nextReq pid (h.2.2 s.res)
        rw [hrg] at this
        exact this
      have h2 : InvA (setRes { st with nextReq := st.nextReq + 1 } s.res r') :=
        invA_setRes h1 hr'
      simp only [hrg]
      split
      · exact invA_afterGrant h2
      · exact invA_setPhase h2


theorem invA_handleEvent {st : SimState} {pid : ℕ} (h : InvA st) :
    InvA (handleEvent st pid) := by
  unfold handleEvent
  cases hph : (getProc st pid).phase with
  | toStart rest => exact invA_startStages (invA_setProc h)
  | waitingGrant s rest arrival reqId => exact invA_afterGrant h
  | inService s rest reqId =>
      simp only
      rcases hrel : (getRes st s.res).release reqId with _ | ⟨r', g⟩
      · exact h
      · have hr' : ResInv st.now r' := resInv_release (h.2.2 s.res) hrel
        cases g with
        | none => exact invA_startStages (invA_setRes h hr')
        | some w =>
            exact invA_startStages (invA_scheduleAfter (invA_setRes h hr'))
  | done => exact h
  | failed => exact h


/-- Advancing the clock to the head event's due time preserves the
invariant. -/
theorem invA_advance {st : SimState} {e : Event} {rest : List Event}
    (h : InvA st) (hev : st.events = e :: rest) :
    InvA { st with now := e.due, events := rest } := by
  obtain ⟨hfut, hpair, hres⟩ := h
  rw [hev] at hfut hpair
  rw [List.pairwise_cons] at hpair
  refine ⟨fun f hf => hpair.1 f hf, hpair.2, ?_⟩
  intro i
  exact (hres i).mono (hfut e (by simp))


theorem invA_runLoop {horizon : ℚ} {st : SimState} (h : InvA st) :
    ∀ fuel, InvA (runLoop horizon fuel st) := by
  intro fuel
  induction fuel generalizing st with
  | zero => exact h
  | succ n ih =>
      unfold runLoop
      split
      · exact h
      · split
        · exact h
        · rename_i e rest hev
          split
          · exact ih (invA_handleEvent (invA_advance h hev))
          · exact h


theorem invA_foldl_schedule : ∀ (l : List ℕ) (st : SimState), InvA st →
    InvA (l.foldl (fun st i => scheduleAfter st 0 i) st) := by
  intro l
  induction l with
  | nil => exact fun st h => h
  | cons j t ih => exact fun st h => ih _ (invA_scheduleAfter h)


theorem invA_initState (procs : List Proc) (caps : List ℕ) (uf : ℕ → ℚ)
    (cf : ℕ → ℕ) : InvA (initState procs caps uf cf) := by
  unfold initState
  apply invA_foldl_schedule
  exact ⟨by simp, by simp, fun i => resInv_mk0 0 _⟩



theorem cap_request (r : Resource) (reqId pid : ℕ) (now : VTime) :
    (r.request reqId pid now).1.capacity = r.capacity := by
  unfold Resource.request
  split <;> rfl


theorem cap_release {r r' : Resource} {reqId : ℕ} {g : Option WaitReq}
    (h : r.release reqId = some (r', g)) : r'.capacity = r.capacity := by
  unfold Resource.release at h
  split at h
  · rw [Option.some_inj] at h
    unfold Resource.grantHead Resource.removeHolder at h
    rcases hq : r.queue with _ | ⟨w, t⟩ <;> simp only [hq] at h <;>
      cases h <;> rfl
  · exact absurd h (by simp)


theorem capEq_scheduleAfter {f : ℕ → ℕ} {st : SimState} {d : ℚ} {pid : ℕ}
    (h : CapEq f st) : CapEq f (scheduleAfter st d pid) := by
  unfold scheduleAfter
  split <;> exact h


theorem capEq_afterGrant {f : ℕ → ℕ} {st : SimState} {pid : ℕ} {s : StageDef}
    {rest : List StageDef} {arrival : VTime} {reqId : ℕ} (h : CapEq f st) :
    CapEq f (afterGrant st pid s rest arrival reqId) := by
  unfold afterGrant
  have h1 : CapEq f (recordWait st pid s.name (st.now - arrival)) := h
  generalize recordWait st pid s.name (st.now - arrival) = st1 at h1 ⊢
  have h2 : CapEq f (sampleDur st1 s.dur).2 := by cases s.dur <;> exact h1
  rcases hs : sampleDur st1 s.dur with ⟨od, st2⟩
  rw [hs] at h2
  simp only [hs]
  cases od with
  | none => exact h2
  | some d => exact capEq_scheduleAfter h2


theorem capEq_startStages {f : ℕ → ℕ} {st : SimState} {pid : ℕ}
    {rest : List StageDef} (h : CapEq f st) :
    CapEq f (startStages st pid rest) := by
  cases rest with
  | nil => exact h
  | cons s rest1 =>
      simp only [startStages]
      rcases hrg : (getRes { st with nextReq := st.nextReq + 1 } s.res).request
          st.nextReq pid st.now with ⟨r', g⟩
      have hcap : r'.capacity = (st.resources s.res).capacity := by
        have := cap_request (getRes { st with nextReq := st.nextReq + 1 } s.res)
          st.nextReq pid st.now
        rw [hrg] at this
        exact this
      have h2 : CapEq f (setRes { st with nextReq := st.nextReq + 1 } s.res r') := by
        intro i
        by_cases hi : i = s.res
        · subst hi
          simpa [setRes, upd] using hcap.trans (h s.res)
        · simpa [setRes, upd, hi] using h i
      simp only [hrg]
      split
      · exact capEq_afterGrant h2
      · exact h2


theorem capEq_handleEvent {f : ℕ → ℕ} {st : SimState} {pid : ℕ}
    (h : CapEq f st) : CapEq f (handleEvent st pid) := by
  unfold handleEvent
  cases hph : (getProc st pid).phase with
  | toStart rest => exact capEq_startStages h
  | waitingGrant s rest arrival reqId => exact capEq_afterGrant h
  | inService s rest reqId =>
      simp only
      rcases hrel : (getRes st s.res).release reqId with _ | ⟨r', g⟩
      · exact h
      · have hc : r'.capacity = (st.resources s.res).capacity := cap_release hrel
        have h2 : CapEq f (setRes st s.res r') := by
          intro i
          by_cases hi : i = s.res
          · subst hi
            simpa [setRes, upd] using hc.trans (h s.res)
          · simpa [setRes, upd, hi] using h i
        cases g with
        | none => exact capEq_startStages h2
        | some w => exact capEq_startStages (capEq_scheduleAfter h2)
  | done => exact h
  | failed => exact h


theorem capEq_runLoop {f : ℕ → ℕ} {horizon : ℚ} {st : SimState}
    (h : CapEq f st) : ∀ fuel, CapEq f (runLoop horizon fuel st) := by
  intro fuel
  induction fuel generalizing st with
  | zero => exact h
  | succ n ih =>
      unfold runLoop
      split
      · exact h
      · split
        · exact h
        · rename_i e rest hev
          split
          · exact ih (capEq_handleEvent h)
          · exact h


theorem capEq_foldl_schedule {f : ℕ → ℕ} :
    ∀ (l : List ℕ) (st : SimState), CapEq f st →
    CapEq f (l.foldl (fun st i => scheduleAfter st 0 i) st) := by
  intro l
  induction l with
  | nil => exact fun st h => h
  | cons j t ih => exact fun st h => ih _ (capEq_scheduleAfter h)


theorem capEq_initState (procs : List Proc) (caps : List ℕ) (uf : ℕ → ℚ)
    (cf : ℕ → ℕ) : CapEq (fun i => caps.getD i 0) (initState procs caps uf cf) := by
  unfold initState
  apply capEq_foldl_schedule
  exact fun i => rfl

/-! ## Claim theorems: resource semantics -/


/-- C1: requests on a resource are granted in non-decreasing order of their
enqueue time — at every instant of any run, every resource's grant log
(enqueue times in grant order) is non-decreasing — and every release grants
at most the single head request of the wait queue, advancing the queue by
exactly one. -/
theorem fifo_fairness :
    (∀ (r r' : Resource) (reqId : ℕ) (g : Option WaitReq),
        r.release reqId = some (r', g) →
        g = r.queue.head? ∧ r'.queue = r.queue.tail) ∧
    (∀ (procs : List Proc) (caps : List ℕ) (uf : ℕ → ℚ) (cf : ℕ → ℕ)
        (horizon : ℚ) (fuel : ℕ) (i : ℕ),
        List.Chain' (· ≤ ·)
          (((runLoop horizon fuel (initState procs caps uf cf)).resources i).grants)) := by
  constructor
  · intro r r' reqId g hrel
    unfold Resource.release at hrel
    split at hrel
    · rw [Option.some_inj] at hrel
      unfold Resource.grantHead Resource.removeHolder at hrel
      rcases hq : r.queue with _ | ⟨w, t⟩ <;> simp only [hq] at hrel <;>
        cases hrel <;> simp [hq]
    · exact absurd hrel (by simp)
  · intro procs caps uf cf horizon fuel i
    have h := (@invA_runLoop horizon (initState procs caps uf cf)
      (invA_initState procs caps uf cf) fuel).2.2 i
    exact (List.chain'_append.mp h.2.2.1).1



theorem fifo_fairness_witness :
    c1res.release 0 = some (⟨1, [1], [], [0, 2]⟩, some ⟨1, 1, 2⟩) ∧
    (some (⟨1, 1, 2⟩ : WaitReq) = c1res.queue.head? ∧
      ([] : List WaitReq) = c1res.queue.tail) ∧
    List.Chain' (· ≤ ·)
      (((runLoop 10 5 (initState [] [] zeroUStream zeroCStream)).resources 0).grants) := by
  have hrel : c1res.release 0 = some (⟨1, [1], [], [0, 2]⟩, some ⟨1, 1, 2⟩) := by
    decide
  have h1 := fifo_fairness.1 c1res ⟨1, [1], [], [0, 2]⟩ 0 (some ⟨1, 1, 2⟩) hrel
  exact ⟨hrel, ⟨h1.1, h1.2.symm⟩,
    fifo_fairness.2 [] [] zeroUStream zeroCStream 10 5 0⟩


/-- C2: for every resource, at every instant of any run (i.e. after any
number of processed events), the number of simultaneous holders satisfies
`0 ≤ in_use ≤ capacity`; in the factory run the capacities are those of
`TyreFactory.__init__` (1 per station, 12 for the curing ovens). -/
theorem capacity_invariant (orders : List TyreOrder) (horizon : ℚ)
    (fuel : ℕ) (uf : ℕ → ℚ) (cf : ℕ → ℕ) (i : ℕ) :
    (0 ≤ ((run_simulation orders horizon fuel uf cf).resources i).in_use ∧
     ((run_simulation orders horizon fuel uf cf).resources i).in_use ≤
       ((run_simulation orders horizon fuel uf cf).resources i).capacity ∧
     ((run_simulation orders horizon fuel uf cf).resources i).capacity =
       factoryCapacities.getD i 0) ∧
    (∀ (procs : List Proc) (caps : List ℕ),
      ((runLoop horizon fuel (initState procs caps uf cf)).resources i).in_use ≤
        ((runLoop horizon fuel (initState procs caps uf cf)).resources i).capacity) := by
  constructor
  · refine ⟨Nat.zero_le _, ?_, ?_⟩
    · exact ((invA_runLoop (invA_initState _ _ _ _) fuel).2.2 i).1
    · exact capEq_runLoop (capEq_initState _ _ _ _) fuel i
  · intro procs caps
    exact ((invA_runLoop (invA_initState procs caps uf cf) fuel).2.2 i).1


/-- C7: releasing a request that is not held (never granted, or already
released) fails with NotHeld (modelled as `none`); a successful release
first removes the holder — decreasing the holder count by exactly one —
and then re-grants the head of the wait queue, if any. -/
theorem release_not_held (r : Resource) (reqId : ℕ) :
    (r.release reqId = none ↔ reqId ∉ r.users) ∧
    (reqId ∈ r.users →
      r.release reqId = some ((r.removeHolder reqId).grantHead) ∧
      (r.removeHolder reqId).in_use + 1 = r.in_use) := by
  constructor
  · unfold Resource.release
    split <;> rename_i hmem <;> simp [hmem]
  · intro hmem
    refine ⟨by unfold Resource.release; simp [hmem], ?_⟩
    unfold Resource.removeHolder Resource.in_use
    simpa using List.length_erase_add_one hmem



theorem release_not_held_witness :
    (c7res.release 3 = none ↔ 3 ∉ c7res.users) ∧
    (5 ∈ c7res.users) ∧
    c7res.release 5 = some ((c7res.removeHolder 5).grantHead) ∧
    (c7res.removeHolder 5).in_use + 1 = c7res.in_use := by
  have h5 : 5 ∈ c7res.users := by decide
  have h := (release_not_held c7res 5).2 h5
  exact ⟨(release_not_held c7res 3).1, h5, h.1, h.2⟩

/-! ## Process bookkeeping invariants -/



theorem durDefined_of_sample {st : SimState} {dur : DurSpec} {d : ℚ}
    {st' : SimState} (h : sampleDur st dur = (some d, st')) : durDefined dur := by
  cases dur with
  | const q => trivial
  | station n => trivial
  | curing ty sz =>
      simp only [sampleDur, Prod.mk.injEq] at h
      obtain ⟨h1, _⟩ := h
      unfold get_curing_time at h1
      unfold durDefined
      rcases hb : base_times ty with _ | b <;> rw [hb] at h1
      · exact absurd h1 (by simp)
      rcases ht : temp_adjustments (tempName (st.cf st.cidx)) with _ | ta <;>
        rw [ht] at h1
      · exact absurd h1 (by simp)
      rcases hs : size_adjustments sz with _ | sa <;> rw [hs] at h1
      · exact absurd h1 (by simp)
      simp [hb, hs]


theorem procs_setProc (st : SimState) (i : ℕ) (p : Proc) (q : ℕ) :
    (setProc st i p).procs q = if q = i then p else st.procs q := rfl


theorem stats_setProc (st : SimState) (i : ℕ) (p : Proc) :
    (setProc st i p).production_stats = st.production_stats := rfl


theorem procs_scheduleAfter (st : SimState) (d : ℚ) (pid q : ℕ) :
    (scheduleAfter st d pid).procs q = st.procs q := by
  unfold scheduleAfter
  split <;> rfl


theorem stats_scheduleAfter (st : SimState) (d : ℚ) (pid : ℕ) :
    (scheduleAfter st d pid).production_stats = st.production_stats := by
  unfold scheduleAfter
  split <;> rfl


theorem procs_sampleDur (st : SimState) (dur : DurSpec) (q : ℕ) :
    (sampleDur st dur).2.procs q = st.procs q := by
  cases dur <;> rfl


theorem stats_sampleDur (st : SimState) (dur : DurSpec) :
    (sampleDur st dur).2.production_stats = st.production_stats := by
  cases dur <;> rfl


/-- `afterGrant` only touches the target process: its phase becomes either
in-service on the granted stage or failed, and its waits gain exactly the
new record; all other processes and the stats list are untouched. -/
theorem afterGrant_procs_other {st : SimState} {pid : ℕ} {s : StageDef}
    {rest : List StageDef} {a : VTime} {rq q : ℕ} (h : q ≠ pid) :
    (afterGrant st pid s rest a rq).procs q = st.procs q := by
  unfold afterGrant
  rcases hs : sampleDur (recordWait st pid s.name (st.now - a)) s.dur with ⟨od, st2⟩
  have hp2 : st2.procs q = st.procs q := by
    have h1 := procs_sampleDur (recordWait st pid s.name (st.now - a)) s.dur q
    rw [hs] at h1
    rw [h1]
    simp [recordWait, procs_setProc, h]
  simp only [hs]
  cases od with
  | none => simpa [setPhase, procs_setProc, h] using hp2
  | some d =>
      rw [procs_scheduleAfter]
      simpa [setPhase, procs_setProc, h] using hp2


theorem afterGrant_stats {st : SimState} {pid : ℕ} {s : StageDef}
    {rest : List StageDef} {a : VTime} {rq : ℕ} :
    (afterGrant st pid s rest a rq).production_stats = st.production_stats := by
  unfold afterGrant
  rcases hs : sampleDur (recordWait st pid s.name (st.now - a)) s.dur with ⟨od, st2⟩
  have hst2 : st2.production_stats = st.production_stats := by
    have h1 := stats_sampleDur (recordWait st pid s.name (st.now - a)) s.dur
    rw [hs] at h1
    rw [h1]
    rfl
  simp only [hs]
  cases od with
  | none => simpa [setPhase, stats_setProc] using hst2
  | some d =>
      rw [stats_scheduleAfter]
      simpa [setPhase, stats_setProc] using hst2


theorem startStages_procs_other {st : SimState} {pid : ℕ}
    {rest : List StageDef} {q : ℕ} (h : q ≠ pid) :
    (startStages st pid rest).procs q = st.procs q := by
  cases rest with
  | nil => simp [startStages, setPhase, procs_setProc, h]
  | cons s rest1 =>
      simp only [startStages]
      rcases hrg : (getRes { st with nextReq := st.nextReq + 1 } s.res).request
          st.nextReq pid st.now with ⟨r', g⟩
      simp only [hrg]
      split
      · rw [afterGrant_procs_other h]
        rfl
      · simp [setPhase, procs_setProc, h, setRes]


theorem handleEvent_procs_other {st : SimState} {pid q : ℕ} (h : q ≠ pid) :
    (handleEvent st pid).procs q = st.procs q := by
  unfold handleEvent
  cases hph : (getProc st pid).phase with
  | toStart rest =>
      rw [startStages_procs_other h]
      simp [procs_setProc, h]
  | waitingGrant s rest arrival reqId => exact afterGrant_procs_other h
  | inService s rest reqId =>
      simp only
      rcases hrel : (getRes st s.res).release reqId with _ | ⟨r', g⟩
      · rfl
      · cases g with
        | none =>
            rw [startStages_procs_other h]
            rfl
        | some w =>
            rw [startStages_procs_other h, procs_scheduleAfter]
            rfl
  | done => rfl
  | failed => rfl



theorem sameJob_refl (p : Proc) : sameJob p p := ⟨rfl, rfl, rfl, rfl⟩


theorem sameJob_trans {p q r : Proc} (h1 : sameJob p q) (h2 : sameJob q r) :
    sameJob p r :=
  ⟨h1.1.trans h2.1, h1.2.1.trans h2.2.1, h1.2.2.1.trans h2.2.2.1,
   h1.2.2.2.trans h2.2.2.2⟩


/-- One step of a process only appends to its waiting-time records and
never changes its identity fields. -/
theorem afterGrant_evolve (st : SimState) (pid : ℕ) (s : StageDef)
    (rest : List StageDef) (a : VTime) (rq q : ℕ) :
    ∃ t, ((afterGrant st pid s rest a rq).procs q).waits =
        (st.procs q).waits ++ t ∧
      sameJob ((afterGrant st pid s rest a rq).procs q) (st.procs q) := by
  by_cases hq : q = pid
  · subst hq
    unfold afterGrant
    rcases hs : sampleDur (recordWait st q s.name (st.now - a)) s.dur with ⟨od, st2⟩
    have hp2 : st2.procs q =
        { st.procs q with waits := (st.procs q).waits ++ [(s.name, st.now - a)] } := by
      have h1 := procs_sampleDur (recordWait st q s.name (st.now - a)) s.dur q
      rw [hs] at h1
      rw [h1]
      simp [recordWait, procs_setProc, getProc, setProc, upd]
    simp only [hs]
    cases od with
    | none =>
        refine ⟨[(s.name, st.now - a)], ?_, ?_⟩ <;>
          simp [setPhase, procs_setProc, getProc, hp2, sameJob]
    | some d =>
        refine ⟨[(s.name, st.now - a)], ?_, ?_⟩ <;>
          rw [procs_scheduleAfter] <;>
          simp [setPhase, procs_setProc, getProc, hp2, sameJob]
  · exact ⟨[], by rw [afterGrant_procs_other hq]; simp, by
      rw [afterGrant_procs_other hq]; exact sameJob_refl _⟩


theorem startStages_evolve (st : SimState) (pid : ℕ) (rest : List StageDef)
    (q : ℕ) :
    ∃ t, ((startStages st pid rest).procs q).waits = (st.procs q).waits ++ t ∧
      sameJob ((startStages st pid rest).procs q) (st.procs q) := by
  cases rest with
  | nil =>
      by_cases hq : q = pid
      · subst hq
        refine ⟨[], ?_, ?_⟩ <;>
          simp [startStages, setPhase, procs_setProc, getProc, sameJob]
      · refine ⟨[], ?_, ?_⟩
        · rw [startStages_procs_other hq]
          simp
        · rw [startStages_procs_other hq]
          exact sameJob_refl _
  | cons s rest1 =>
      simp only [startStages]
      rcases hrg : (getRes { st with nextReq := st.nextReq + 1 } s.res).request
          st.nextReq pid st.now with ⟨r', g⟩
      simp only [hrg]
      split
      · exact afterGrant_evolve _ pid s rest1 st.now st.nextReq q
      · by_cases hq : q = pid
        · subst hq
          refine ⟨[], ?_, ?_⟩ <;>
            simp [setPhase, procs_setProc, getProc, setRes, sameJob]
        · refine ⟨[], ?_, ?_⟩ <;> simp [setPhase, procs_setProc, hq, setRes]
          exact sameJob_refl _


theorem handleEvent_evolve (st : SimState) (pid q : ℕ) :
    ∃ t, ((handleEvent st pid).procs q).waits = (st.procs q).waits ++ t ∧
      sameJob ((handleEvent st pid).procs q) (st.procs q) := by
  unfold handleEvent
  cases hph : (getProc st pid).phase with
  | toStart rest =>
      obtain ⟨t, ht, hj⟩ := startStages_evolve
        (setProc st pid { getProc st pid with startTime := st.now }) pid rest q
      refine ⟨t, ?_, ?_⟩
      · rw [ht]
        by_cases hq : q = pid <;>
          simp [procs_setProc, hq, getProc]
      · refine sameJob_trans hj ?_
        by_cases hq : q = pid <;>
          simp [procs_setProc, hq, getProc, sameJob]
  | waitingGrant s rest arrival reqId => exact afterGrant_evolve st pid s rest arrival reqId q
  | inService s rest reqId =>
      simp only
      rcases hrel : (getRes st s.res).release reqId with _ | ⟨r', g⟩
      · exact ⟨[], by simp, sameJob_refl _⟩
      · cases g with
        | none => exact startStages_evolve _ pid rest q
        | some w =>
            obtain ⟨t, ht, hj⟩ := startStages_evolve
              (scheduleAfter (setRes st s.res r') 0 w.pid) pid rest q
            refine ⟨t, ?_, ?_⟩
            · rw [ht, procs_scheduleAfter]
              rfl
            · refine sameJob_trans hj ?_
              rw [procs_scheduleAfter]
              exact sameJob_refl _
  | done => exact ⟨[], by simp, sameJob_refl _⟩
  | failed => exact ⟨[], by simp, sameJob_refl _⟩


theorem upd_upd_same {α : Type} (f : ℕ → α) (i : ℕ) (a b : α) :
    upd (upd f i a) i b = upd f i b := by
  funext j
  by_cases hj : j = i <;> simp [upd, hj]


/-- Replacing one unfinished process by a process with the same route that
satisfies the per-process clauses preserves the invariant, as long as the
stats list is unchanged. -/
theorem invB_replace {st stA : SimState} {pid : ℕ} (p' : Proc) (h : InvB st)
    (hprocs : stA.procs = upd st.procs pid p')
    (hstats : stA.production_stats = st.production_stats)
    (hnd : (st.procs pid).phase ≠ Phase.done)
    (hroute : p'.route = (st.procs pid).route)
    (hpr : phaseRoute p')
    (hc3 : ∀ s1 r1 q1, p'.phase = Phase.inService s1 r1 q1 → durDefined s1.dur)
    (hc4 : p'.phase = Phase.done → ∀ s1, p'.route.getLast? = some s1 →
      durDefined s1.dur) :
    InvB stA := by
  obtain ⟨h1, h2, h3, h4, h5⟩ := h
  refine ⟨?_, ?_, ?_, ?_, ?_⟩
  · intro s hs
    rw [hstats] at hs
    rw [hprocs]
    by_cases he : s.serial_number = pid
    · exact absurd (he ▸ h1 s hs) hnd
    · rw [upd_other _ _ _ _ he]
      exact h1 s hs
  · intro q
    rw [hprocs]
    by_cases hq : q = pid
    · subst hq
      rw [upd_same]
      exact hpr
    · rw [upd_other _ _ _ _ hq]
      exact h2 q
  · intro q s1 r1 q1
    rw [hprocs]
    by_cases hq : q = pid
    · subst hq
      rw [upd_same]
      exact hc3 s1 r1 q1
    · rw [upd_other _ _ _ _ hq]
      exact h3 q s1 r1 q1
  · intro q s1
    rw [hprocs]
    by_cases hq : q = pid
    · subst hq
      rw [upd_same]
      exact fun hd => hc4 hd s1
    · rw [upd_other _ _ _ _ hq]
      exact h4 q s1
  · intro s hs
    rw [hstats] at hs
    exact h5 s hs


theorem invB_afterGrant {st : SimState} {pid : ℕ} {s : StageDef}
    {rest : List StageDef} {a : VTime} {rq : ℕ} (h : InvB st)
    (hnd : (st.procs pid).phase ≠ Phase.done)
    (hsuf : (s :: rest) <:+ (st.procs pid).route) :
    InvB (afterGrant st pid s rest a rq) := by
  unfold afterGrant
  rcases hs : sampleDur (recordWait st pid s.name (st.now - a)) s.dur with ⟨od, st2⟩
  have hprocs2 : st2.procs = upd st.procs pid
      { st.procs pid with waits := (st.procs pid).waits ++ [(s.name, st.now - a)] } := by
    funext q
    have h1 := procs_sampleDur (recordWait st pid s.name (st.now - a)) s.dur q
    rw [hs] at h1
    rw [h1]
    rfl
  have hstats2 : st2.production_stats = st.production_stats := by
    have h1 := stats_sampleDur (recordWait st pid s.name (st.now - a)) s.dur
    rw [hs] at h1
    rw [h1]
    rfl
  simp only [hs]
  cases od with
  | none =>
      refine invB_replace
        { st.procs pid with
          waits := (st.procs pid).waits ++ [(s.name, st.now - a)],
          phase := Phase.failed } h ?_ ?_ hnd rfl ?_ ?_ ?_
      · show (setProc st2 pid _).procs = _
        unfold setProc
        simp only [getProc, hprocs2, upd_same, upd_upd_same]
      · exact hstats2
      · trivial
      · intro s1 r1 q1 hx
        exact absurd hx (by simp)
      · intro hx
        exact absurd hx (by simp)
  | some d =>
      refine invB_replace
        { st.procs pid with
          waits := (st.procs pid).waits ++ [(s.name, st.now - a)],
          phase := Phase.inService s rest rq } h ?_ ?_ hnd rfl ?_ ?_ ?_
      · show (scheduleAfter (setPhase st2 pid _) d pid).procs = _
        have hp : ∀ (st' : SimState) (dd : ℚ) (p1 : ℕ),
            (scheduleAfter st' dd p1).procs = st'.procs := by
          intro st' dd p1
          unfold scheduleAfter
          split <;> rfl
        rw [hp]
        unfold setPhase setProc
        simp only [getProc, hprocs2, upd_same, upd_upd_same]
      · have hp : ∀ (st' : SimState) (dd : ℚ) (p1 : ℕ),
            (scheduleAfter st' dd p1).production_stats = st'.production_stats := by
          intro st' dd p1
          unfold scheduleAfter
          split <;> rfl
        rw [hp]
        exact hstats2
      · show (s :: rest) <:+ (st.procs pid).route
        exact hsuf
      · intro s1 r1 q1 hx
        simp only [Phase.inService.injEq] at hx
        obtain ⟨hx1, _, _⟩ := hx
        exact hx1 ▸ durDefined_of_sample hs
      · intro hx
        exact absurd hx (by simp)


theorem invB_startStages {st : SimState} {pid : ℕ} {rest : List StageDef}
    (h : InvB st) (hnd : (st.procs pid).phase ≠ Phase.done)
    (hsuf : rest <:+ (st.procs pid).route)
    (hlast : rest = [] → ∀ s1, (st.procs pid).route.getLast? = some s1 →
      durDefined s1.dur) :
    InvB (startStages st pid rest) := by
  obtain ⟨h1, h2, h3, h4, h5⟩ := h
  cases rest with
  | nil =>
      simp only [startStages]
      refine ⟨?_, ?_, ?_, ?_, ?_⟩
      · intro s hs
        have hx : s ∈ st.production_stats ++
            [(⟨pid, (getProc st pid).orderPid, (getProc st pid).startTime,
              st.now, (getProc st pid).waits,
              st.now - (getProc st pid).startTime⟩ : ProductionStats)] := hs
        show ((setPhase st pid Phase.done).procs s.serial_number).phase =
          Phase.done
        rcases List.mem_append.mp hx with hs' | hs'
        · by_cases he : s.serial_number = pid
          · exact absurd (he ▸ h1 s hs') hnd
          · unfold setPhase setProc
            simp only [procs_setProc] at *
            simp only [upd_other _ _ _ _ he]
            exact h1 s hs'
        · rw [List.mem_singleton] at hs'
          subst hs'
          unfold setPhase setProc
          simp [upd_same]
      · intro q
        show phaseRoute ((setPhase st pid Phase.done).procs q)
        unfold setPhase setProc
        by_cases hq : q = pid
        · subst hq
          simp only [upd_same]
          trivial
        · simp only [upd_other _ _ _ _ hq]
          exact h2 q
      · intro q s1 r1 q1
        show ((setPhase st pid Phase.done).procs q).phase =
          Phase.inService s1 r1 q1 → durDefined s1.dur
        unfold setPhase setProc
        by_cases hq : q = pid
        · subst hq
          simp only [upd_same]
          intro hx
          exact absurd hx (by simp)
        · simp only [upd_other _ _ _ _ hq]
          exact h3 q s1 r1 q1
      · intro q s1
        show ((setPhase st pid Phase.done).procs q).phase = Phase.done →
          ((setPhase st pid Phase.done).procs q).route.getLast? = some s1 →
          durDefined s1.dur
        unfold setPhase setProc
        by_cases hq : q = pid
        · subst hq
          simp only [upd_same]
          intro _ hgl
          exact hlast rfl s1 hgl
        · simp only [upd_other _ _ _ _ hq]
          exact h4 q s1
      · intro s hs
        have hx : s ∈ st.production_stats ++
            [(⟨pid, (getProc st pid).orderPid, (getProc st pid).startTime,
              st.now, (getProc st pid).waits,
              st.now - (getProc st pid).startTime⟩ : ProductionStats)] := hs
        rcases List.mem_append.mp hx with hs' | hs'
        · exact h5 s hs'
        · rw [List.mem_singleton] at hs'
          subst hs'
          rfl
  | cons s rest1 =>
      simp only [startStages]
      rcases hrg : (getRes { st with nextReq := st.nextReq + 1 } s.res).request
          st.nextReq pid st.now with ⟨r', g⟩
      simp only [hrg]
      have hB2 : InvB (setRes { st with nextReq := st.nextReq + 1 } s.res r') :=
        ⟨h1, h2, h3, h4, h5⟩
      split
      · exact invB_afterGrant hB2 hnd hsuf
      · refine invB_replace
          { st.procs pid with
            phase := Phase.waitingGrant s rest1 st.now st.nextReq }
          hB2 ?_ rfl hnd rfl ?_ ?_ ?_
        · show (setPhase _ pid _).procs = _
          unfold setPhase setProc
          rfl
        · show (s :: rest1) <:+ (st.procs pid).route
          exact hsuf
        · intro s1 r1 q1 hx
          exact absurd hx (by simp)
        · intro hx
          exact absurd hx (by simp)


theorem invB_handleEvent {st : SimState} {pid : ℕ} (h : InvB st) :
    InvB (handleEvent st pid) := by
  unfold handleEvent
  cases hph : (getProc st pid).phase with
  | toStart rest =>
      have hnd : (st.procs pid).phase ≠ Phase.done := by
        rw [show (st.procs pid).phase = Phase.toStart rest from hph]
        simp
      have hroute : rest = (st.procs pid).route := by
        have := h.2.1 pid
        unfold phaseRoute at this
        rw [show (st.procs pid).phase = Phase.toStart rest from hph] at this
        exact this
      set st1 := setProc st pid { getProc st pid with startTime := st.now } with hst1
      have hB1 : InvB st1 := by
        refine invB_replace { getProc st pid with startTime := st.now }
          h rfl rfl hnd rfl ?_ ?_ ?_
        · show phaseRoute { getProc st pid with startTime := st.now }
          unfold phaseRoute
          simp only [hph]
          exact hroute
        · intro s1 r1 q1 hx
          simp only [hph] at hx
          exact absurd hx (by simp)
        · intro hx
          simp only [hph] at hx
          exact absurd hx (by simp)
      have hp1 : st1.procs pid = { getProc st pid with startTime := st.now } := by
        rw [hst1]
        unfold setProc
        simp [upd_same]
      refine invB_startStages hB1 ?_ ?_ ?_
      · rw [hp1]
        simpa using hnd
      · rw [hp1]
        show rest <:+ (getProc st pid).route
        exact hroute ▸ List.suffix_rfl
      · intro hre s1 hgl
        subst hre
        rw [hp1] at hgl
        rw [show ({ getProc st pid with startTime := st.now } : Proc).route =
          (st.procs pid).route from rfl, ← hroute] at hgl
        exact absurd hgl (by simp)
  | waitingGrant s rest arrival reqId =>
      have hnd : (st.procs pid).phase ≠ Phase.done := by
        rw [show (st.procs pid).phase = _ from hph]
        simp
      have hsuf : (s :: rest) <:+ (st.procs pid).route := by
        have := h.2.1 pid
        unfold phaseRoute at this
        rw [show (st.procs pid).phase = Phase.waitingGrant s rest arrival reqId
          from hph] at this
        exact this
      exact invB_afterGrant h hnd hsuf
  | inService s rest reqId =>
      simp only
      have hnd : (st.procs pid).phase ≠ Phase.done := by
        rw [show (st.procs pid).phase = _ from hph]
        simp
      have hsuf : (s :: rest) <:+ (st.procs pid).route := by
        have := h.2.1 pid
        unfold phaseRoute at this
        rw [show (st.procs pid).phase = Phase.inService s rest reqId
          from hph] at this
        exact this
      have hsuf' : rest <:+ (st.procs pid).route :=
        List.IsSuffix.trans (List.suffix_cons s rest) hsuf
      have hdd : durDefined s.dur := h.2.2.1 pid s rest reqId hph
      have hlast : rest = [] → ∀ s1, (st.procs pid).route.getLast? = some s1 →
          durDefined s1.dur := by
        intro hre s1 hgl
        subst hre
        obtain ⟨t, ht⟩ := hsuf
        rw [← ht, List.getLast?_append_cons] at hgl
        simp only [List.getLast?_singleton, Option.some_inj] at hgl
        exact hgl ▸ hdd
      rcases hrel : (getRes st s.res).release reqId with _ | ⟨r', g⟩
      · exact h
      · cases g with
        | none => exact invB_startStages h hnd hsuf' hlast
        | some w =>
            have hB2 : InvB (scheduleAfter (setRes st s.res r') 0 w.pid) := by
              have hp : (scheduleAfter (setRes st s.res r') 0 w.pid).procs =
                  st.procs := by
                unfold scheduleAfter
                split <;> rfl
              have hq : (scheduleAfter (setRes st s.res r') 0 w.pid).production_stats =
                  st.production_stats := by
                unfold scheduleAfter
                split <;> rfl
              obtain ⟨h1, h2, h3, h4, h5⟩ := h
              exact ⟨by rw [hq, hp]; exact h1, by rw [hp]; exact h2,
                by rw [hp]; exact h3, by rw [hp]; exact h4, by rw [hq]; exact h5⟩
            refine invB_startStages hB2 ?_ ?_ ?_
            all_goals
              have hp : (scheduleAfter (setRes st s.res r') 0 w.pid).procs =
                  st.procs := by
                unfold scheduleAfter
                split <;> rfl
              rw [hp]
            · exact hnd
            · exact hsuf'
            · exact hlast
  | done => exact h
  | failed => exact h


theorem invB_runLoop {horizon : ℚ} {st : SimState} (h : InvB st) :
    ∀ fuel, InvB (runLoop horizon fuel st) := by
  intro fuel
  induction fuel generalizing st with
  | zero => exact h
  | succ n ih =>
      unfold runLoop
      split
      · exact h
      · split
        · exact h
        · rename_i e rest hev
          split
          · refine ih ?_
            refine invB_handleEvent ?_
            exact h
          · exact h



theorem procInit_default : ProcInit defaultProc := by
  refine ⟨trivial, ?_, ?_⟩
  · intro s rest rq hx
    exact absurd hx (by simp [defaultProc])
  · intro _ s hx
    exact absurd hx (by simp [defaultProc])


theorem getD_mem_or {α : Type} (l : List α) (n : ℕ) (d : α) :
    l.getD n d ∈ l ∨ l.getD n d = d := by
  by_cases h : n < l.length
  · left
    rw [List.getD_eq_getElem l d h]
    exact List.getElem_mem h
  · right
    exact List.getD_eq_default l d (le_of_not_lt h)


theorem invB_scheduleAfter {st : SimState} {d : ℚ} {pid : ℕ} (h : InvB st) :
    InvB (scheduleAfter st d pid) := by
  unfold scheduleAfter
  split <;> exact h


theorem invB_foldl_schedule : ∀ (l : List ℕ) (st : SimState), InvB st →
    InvB (l.foldl (fun st i => scheduleAfter st 0 i) st) := by
  intro l
  induction l with
  | nil => exact fun st h => h
  | cons j t ih => exact fun st h => ih _ (invB_scheduleAfter h)


theorem invB_initState (procs : List Proc) (caps : List ℕ) (uf : ℕ → ℚ)
    (cf : ℕ → ℕ) (hinit : ∀ p ∈ procs, ProcInit p) :
    InvB (initState procs caps uf cf) := by
  unfold initState
  apply invB_foldl_schedule
  have hP : ∀ q : ℕ, ProcInit (procs.getD q defaultProc) := by
    intro q
    rcases getD_mem_or procs q defaultProc with hm | hd
    · exact hinit _ hm
    · rw [hd]
      exact procInit_default
  exact ⟨by simp, fun q => (hP q).1, fun q => (hP q).2.1,
    fun q s hd hg => (hP q).2.2 hd s hg, by simp⟩

/-! ## Statistics and insights (get_production_insights) -/



theorem procInit_scenJob (d : ℚ) : ProcInit (scenJob d) := by
  refine ⟨rfl, ?_, ?_⟩
  · intro s rest rq hx
    exact absurd hx (by simp [scenJob])
  · intro hx
    exact absurd hx (by simp [scenJob])



theorem runLoop_evolve (horizon : ℚ) (fuel : ℕ) (st : SimState) (q : ℕ) :
    ∃ t, ((runLoop horizon fuel st).procs q).waits = (st.procs q).waits ++ t ∧
      sameJob ((runLoop horizon fuel st).procs q) (st.procs q) := by
  induction fuel generalizing st with
  | zero => exact ⟨[], by simp [runLoop], sameJob_refl _⟩
  | succ n ih =>
      unfold runLoop
      split
      · exact ⟨[], by simp, sameJob_refl _⟩
      · split
        · exact ⟨[], by simp, sameJob_refl _⟩
        · rename_i e rest hev
          split
          · obtain ⟨t1, ht1, hj1⟩ := ih
              (handleEvent { st with now := e.due, events := rest } e.pid)
            obtain ⟨t2, ht2, hj2⟩ := handleEvent_evolve
              { st with now := e.due, events := rest } e.pid q
            refine ⟨t2 ++ t1, ?_, sameJob_trans hj1 hj2⟩
            rw [ht1, ht2, List.append_assoc]
          · exact ⟨[], by simp, sameJob_refl _⟩

/-! ## Claim theorems: scenarios, determinism, truncation -/


/-- C4: with the 12-oven resource and 20 simultaneously created jobs, each
a single fixed 5-unit stage, the first 12 jobs wait 0 and complete at time
5 while the remaining 8 wait 5 and complete at time 10. -/
theorem oven_scenario :
    (runLoop 100 100 (initState (List.replicate 20 (scenJob 5)) [12]
      zeroUStream zeroCStream)).production_stats = ovenExpected := by
  decide


/-- C5: two runs with identical order lists, horizon, fuel and random
streams produce identical states, hence identical completion records and
identical aggregates. -/
theorem determinism (o1 o2 : List TyreOrder) (t1 t2 : ℚ) (f1 f2 : ℕ)
    (u1 u2 : ℕ → ℚ) (c1 c2 : ℕ → ℕ)
    (ho : o1 = o2) (ht : t1 = t2) (hf : f1 = f2) (hu : u1 = u2)
    (hc : c1 = c2) :
    run_simulation o1 t1 f1 u1 c1 = run_simulation o2 t2 f2 u2 c2 ∧
    (run_simulation o1 t1 f1 u1 c1).production_stats =
      (run_simulation o2 t2 f2 u2 c2).production_stats ∧
    get_production_insights (run_simulation o1 t1 f1 u1 c1) =
      get_production_insights (run_simulation o2 t2 f2 u2 c2) := by
  subst ho ht hf hu hc
  exact ⟨rfl, rfl, rfl⟩



theorem determinism_witness :
    run_simulation [pressOnOrder] 480 200 zeroUStream zeroCStream =
      run_simulation [pressOnOrder] 480 200 zeroUStream zeroCStream ∧
    (run_simulation [pressOnOrder] 480 200 zeroUStream zeroCStream).production_stats =
      (run_simulation [pressOnOrder] 480 200 zeroUStream zeroCStream).production_stats ∧
    get_production_insights
        (run_simulation [pressOnOrder] 480 200 zeroUStream zeroCStream) =
      get_production_insights
        (run_simulation [pressOnOrder] 480 200 zeroUStream zeroCStream) :=
  determinism [pressOnOrder] [pressOnOrder] 480 480 200 200
    zeroUStream zeroUStream zeroCStream zeroCStream rfl rfl rfl rfl rfl


/-- C6: a job still in progress when the run stops never appears among the
completed-production records; the stage records it appended before the
horizon are still present on its process after the run; and the insights
are computed from the completed records (and the clock) alone, so partial
records are excluded from every completion aggregate. -/
theorem horizon_truncation :
    (∀ (procs : List Proc) (caps : List ℕ) (uf : ℕ → ℚ) (cf : ℕ → ℕ)
        (horizon : ℚ) (fuel : ℕ) (pid : ℕ),
      (∀ p ∈ procs, ProcInit p) →
      ((runLoop horizon fuel (initState procs caps uf cf)).procs pid).phase ≠
        Phase.done →
      ∀ s ∈ (runLoop horizon fuel (initState procs caps uf cf)).production_stats,
        s.serial_number ≠ pid) ∧
    (∀ (st : SimState) (horizon : ℚ) (fuel : ℕ) (pid : ℕ),
      ∃ t, ((runLoop horizon fuel st).procs pid).waits =
        (st.procs pid).waits ++ t) ∧
    (∀ st st' : SimState, st.production_stats = st'.production_stats →
      st.now = st'.now →
      get_production_insights st = get_production_insights st') := by
  refine ⟨?_, ?_, ?_⟩
  · intro procs caps uf cf horizon fuel pid hinit hnd s hs he
    have hB := @invB_runLoop horizon (initState procs caps uf cf)
      (invB_initState procs caps uf cf hinit) fuel
    exact hnd (he ▸ hB.1 s hs)
  · intro st horizon fuel pid
    obtain ⟨t, ht, _⟩ := runLoop_evolve horizon fuel st pid
    exact ⟨t, ht⟩
  · intro st st' h1 h2
    unfold get_production_insights
    rw [h1, h2]


theorem horizon_truncation_witness :
    (∀ p ∈ [scenJob 10], ProcInit p) ∧
    ((runLoop 5 20 (initState [scenJob 10] [1] zeroUStream zeroCStream)).procs 0).phase ≠
      Phase.done ∧
    (∀ s ∈ (runLoop 5 20
        (initState [scenJob 10] [1] zeroUStream zeroCStream)).production_stats,
      s.serial_number ≠ 0) ∧
    (∃ t, ((runLoop 5 20
        (initState [scenJob 10] [1] zeroUStream zeroCStream)).procs 0).waits =
      ((initState [scenJob 10] [1] zeroUStream zeroCStream).procs 0).waits ++ t) ∧
    get_production_insights
        (runLoop 5 20 (initState [scenJob 10] [1] zeroUStream zeroCStream)) =
      get_production_insights
        (runLoop 5 20 (initState [scenJob 10] [1] zeroUStream zeroCStream)) := by
  have hinit : ∀ p ∈ [scenJob 10], ProcInit p := by
    intro p hp
    rw [List.mem_singleton] at hp
    exact hp ▸ procInit_scenJob 10
  have hnd : ((runLoop 5 20
      (initState [scenJob 10] [1] zeroUStream zeroCStream)).procs 0).phase ≠
      Phase.done := by
    decide
  exact ⟨hinit, hnd,
    horizon_truncation.1 [scenJob 10] [1] zeroUStream zeroCStream 5 20 0 hinit hnd,
    horizon_truncation.2.1 (initState [scenJob 10] [1] zeroUStream zeroCStream) 5 20 0,
    horizon_truncation.2.2 _ _ rfl rfl⟩


/-! ## Non-negative durations and InvalidDelay unreachability -/


theorem time_ranges_valid (name : String) :
    0 ≤ (time_ranges name).1 ∧ (time_ranges name).1 ≤ (time_ranges name).2 := by
  unfold time_ranges
  split_ifs <;> norm_num


theorem get_process_time_nonneg (name : String) {u : ℚ} (h0 : 0 ≤ u)
    (h1 : u ≤ 1) : 0 ≤ get_process_time name u := by
  obtain ⟨ha, hab⟩ := time_ranges_valid name
  unfold get_process_time
  have hm : 0 ≤ u * ((time_ranges name).2 - (time_ranges name).1) :=
    mul_nonneg h0 (by linarith)
  have : (0:ℚ) ≤ (time_ranges name).1 + u * ((time_ranges name).2 - (time_ranges name).1) := by
    linarith
  positivity


theorem base_times_nonneg {t : String} {b : ℚ} (h : base_times t = some b) :
    0 ≤ b := by
  unfold base_times at h
  split_ifs at h <;> simp only [Option.some_inj] at h <;>
    first
      | (subst h; norm_num)
      | exact absurd h (by simp)


theorem temp_adjustments_nonneg {t : String} {b : ℚ}
    (h : temp_adjustments t = some b) : 0 ≤ b := by
  unfold temp_adjustments at h
  split_ifs at h <;> simp only [Option.some_inj] at h <;>
    first
      | (subst h; norm_num)
      | exact absurd h (by simp)


theorem size_adjustments_nonneg {t : String} {b : ℚ}
    (h : size_adjustments t = some b) : 0 ≤ b := by
  unfold size_adjustments at h
  split_ifs at h <;> simp only [Option.some_inj] at h <;>
    first
      | (subst h; norm_num)
      | exact absurd h (by simp)


theorem get_curing_time_nonneg {ty sz tmp : String} {c : ℚ}
    (h : get_curing_time ty sz tmp = some c) : 0 ≤ c := by
  unfold get_curing_time at h
  rcases hb : base_times ty with _ | b <;> rw [hb] at h
  · exact absurd h (by simp)
  rcases ht : temp_adjustments tmp with _ | ta <;> rw [ht] at h
  · exact absurd h (by simp)
  rcases hs : size_adjustments sz with _ | sa <;> rw [hs] at h
  · exact absurd h (by simp)
  simp only [Option.some_inj] at h
  subst h
  have := base_times_nonneg hb
  have := temp_adjustments_nonneg ht
  have := size_adjustments_nonneg hs
  linarith



theorem sample_nonneg {uf : ℕ → ℚ} {st : SimState} {dur : DurSpec} {d : ℚ}
    {st' : SimState} (hu : UBound uf) (hst : st.uf = uf) (hd : DurSafe dur)
    (h : sampleDur st dur = (some d, st')) : 0 ≤ d := by
  cases dur with
  | const q =>
      simp only [sampleDur, Prod.mk.injEq, Option.some_inj] at h
      exact h.1 ▸ hd
  | station n =>
      simp only [sampleDur, Prod.mk.injEq, Option.some_inj] at h
      rw [← h.1, hst]
      exact get_process_time_nonneg n (hu st.uidx).1 (hu st.uidx).2
  | curing ty sz =>
      simp only [sampleDur, Prod.mk.injEq] at h
      exact get_curing_time_nonneg h.1


theorem safe_replace {uf : ℕ → ℚ} {st stA : SimState} (pid : ℕ) (p' : Proc)
    (h : SafeState uf st) (hflag : stA.invalidDelay = st.invalidDelay)
    (huf : stA.uf = st.uf) (hprocs : stA.procs = upd st.procs pid p')
    (hp' : ∀ s ∈ (p'.phase).restOf, DurSafe s.dur) : SafeState uf stA := by
  obtain ⟨h1, h2, h3⟩ := h
  refine ⟨hflag.trans h1, huf.trans h2, ?_⟩
  intro q s hs
  rw [hprocs] at hs
  by_cases hq : q = pid
  · subst hq
    rw [upd_same] at hs
    exact hp' s hs
  · rw [upd_other _ _ _ _ hq] at hs
    exact h3 q s hs


theorem safe_scheduleAfter {uf : ℕ → ℚ} {st : SimState} {d : ℚ} {pid : ℕ}
    (h : SafeState uf st) (hd : 0 ≤ d) :
    SafeState uf (scheduleAfter st d pid) := by
  unfold scheduleAfter
  split
  · rename_i hneg
    exact absurd hd (by linarith)
  · exact h


theorem safe_afterGrant {uf : ℕ → ℚ} {st : SimState} {pid : ℕ} {s : StageDef}
    {rest : List StageDef} {a : VTime} {rq : ℕ} (h : SafeState uf st)
    (hu : UBound uf) (hsafe : ∀ x ∈ s :: rest, DurSafe x.dur) :
    SafeState uf (afterGrant st pid s rest a rq) := by
  unfold afterGrant
  rcases hs : sampleDur (recordWait st pid s.name (st.now - a)) s.dur with ⟨od, st2⟩
  have hprocs2 : st2.procs = upd st.procs pid
      { st.procs pid with waits := (st.procs pid).waits ++ [(s.name, st.now - a)] } := by
    funext q
    have h1 := procs_sampleDur (recordWait st pid s.name (st.now - a)) s.dur q
    rw [hs] at h1
    rw [h1]
    rfl
  have hflag2 : st2.invalidDelay = st.invalidDelay := by
    have : (sampleDur (recordWait st pid s.name (st.now - a)) s.dur).2.invalidDelay =
        st.invalidDelay := by
      cases s.dur <;> rfl
    rw [hs] at this
    exact this
  have huf2 : st2.uf = st.uf := by
    have : (sampleDur (recordWait st pid s.name (st.now - a)) s.dur).2.uf = st.uf := by
      cases s.dur <;> rfl
    rw [hs] at this
    exact this
  have hufst : (recordWait st pid s.name (st.now - a)).uf = uf := h.2.1
  simp only [hs]
  cases od with
  | none =>
      refine safe_replace pid
        { st.procs pid with
          waits := (st.procs pid).waits ++ [(s.name, st.now - a)],
          phase := Phase.failed } h ?_ ?_ ?_ ?_
      · exact hflag2
      · exact huf2
      · show (setPhase st2 pid Phase.failed).procs = _
        unfold setPhase setProc
        simp only [getProc, hprocs2, upd_same, upd_upd_same]
      · intro x hx
        exact absurd hx (by simp [Phase.restOf])
  | some d =>
      have hdpos : 0 ≤ d :=
        sample_nonneg hu hufst (hsafe s (by simp)) hs
      refine safe_scheduleAfter ?_ hdpos
      refine safe_replace pid
        { st.procs pid with
          waits := (st.procs pid).waits ++ [(s.name, st.now - a)],
          phase := Phase.inService s rest rq } h ?_ ?_ ?_ ?_
      · exact hflag2
      · exact huf2
      · show (setPhase st2 pid (Phase.inService s rest rq)).procs = _
        unfold setPhase setProc
        simp only [getProc, hprocs2, upd_same, upd_upd_same]
      · intro x hx
        exact hsafe x hx


theorem safe_startStages {uf : ℕ → ℚ} {st : SimState} {pid : ℕ}
    {rest : List StageDef} (h : SafeState uf st) (hu : UBound uf)
    (hsafe : ∀ x ∈ rest, DurSafe x.dur) :
    SafeState uf (startStages st pid rest) := by
  cases rest with
  | nil =>
      simp only [startStages]
      refine safe_replace pid { getProc st pid with phase := Phase.done } h rfl rfl ?_ ?_
      · show ({ setPhase st pid Phase.done with production_stats := _ } : SimState).procs = _
        unfold setPhase setProc
        rfl
      · intro x hx
        exact absurd hx (by simp [Phase.restOf])
  | cons s rest1 =>
      simp only [startStages]
      rcases hrg : (getRes { st with nextReq := st.nextReq + 1 } s.res).request
          st.nextReq pid st.now with ⟨r', g⟩
      have hB2 : SafeState uf (setRes { st with nextReq := st.nextReq + 1 } s.res r') := h
      simp only [hrg]
      split
      · exact safe_afterGrant hB2 hu hsafe
      · refine safe_replace pid
          { st.procs pid with
            phase := Phase.waitingGrant s rest1 st.now st.nextReq }
          hB2 rfl rfl ?_ ?_
        · show (setPhase _ pid _).procs = _
          unfold setPhase setProc
          rfl
        · intro x hx
          exact hsafe x hx


theorem safe_handleEvent {uf : ℕ → ℚ} {st : SimState} {pid : ℕ}
    (h : SafeState uf st) (hu : UBound uf) :
    SafeState uf (handleEvent st pid) := by
  unfold handleEvent
  cases hph : (getProc st pid).phase with
  | toStart rest =>
      have hsafe : ∀ x ∈ rest, DurSafe x.dur := by
        intro x hx
        refine h.2.2 pid x ?_
        rw [show (st.procs pid).phase = Phase.toStart rest from hph]
        exact hx
      refine safe_startStages ?_ hu hsafe
      refine safe_replace pid { getProc st pid with startTime := st.now } h rfl rfl rfl ?_
      intro x hx
      refine h.2.2 pid x ?_
      exact hx
  | waitingGrant s rest arrival reqId =>
      have hsafe : ∀ x ∈ s :: rest, DurSafe x.dur := by
        intro x hx
        refine h.2.2 pid x ?_
        rw [show (st.procs pid).phase = Phase.waitingGrant s rest arrival reqId
          from hph]
        exact hx
      exact safe_afterGrant h hu hsafe
  | inService s rest reqId =>
      simp only
      have hsafe : ∀ x ∈ rest, DurSafe x.dur := by
        intro x hx
        refine h.2.2 pid x ?_
        rw [show (st.procs pid).phase = Phase.inService s rest reqId from hph]
        exact List.mem_cons_of_mem s hx
      rcases hrel : (getRes st s.res).release reqId with _ | ⟨r', g⟩
      · exact ⟨h.1, h.2.1, h.2.2⟩
      · cases g with
        | none => exact safe_startStages h hu hsafe
        | some w =>
            refine safe_startStages ?_ hu hsafe
            exact safe_scheduleAfter h le_rfl
  | done => exact h
  | failed => exact h


theorem safe_runLoop {uf : ℕ → ℚ} {horizon : ℚ} {st : SimState}
    (h : SafeState uf st) (hu : UBound uf) :
    ∀ fuel, SafeState uf (runLoop horizon fuel st) := by
  intro fuel
  induction fuel generalizing st with
  | zero => exact h
  | succ n ih =>
      unfold runLoop
      split
      · exact h
      · split
        · exact h
        · rename_i e rest hev
          split
          · exact ih (safe_handleEvent h hu)
          · exact h


theorem safe_foldl_schedule {uf : ℕ → ℚ} :
    ∀ (l : List ℕ) (st : SimState), SafeState uf st →
    SafeState uf (l.foldl (fun st i => scheduleAfter st 0 i) st) := by
  intro l
  induction l with
  | nil => exact fun st h => h
  | cons j t ih => exact fun st h => ih _ (safe_scheduleAfter h le_rfl)


theorem tyreRoute_safe (ty sz : String) : ∀ s ∈ tyreRoute ty sz, DurSafe s.dur := by
  intro s hs
  unfold tyreRoute steps at hs
  split_ifs at hs <;>
    simp only [List.mem_append, List.mem_cons, List.mem_singleton,
      List.not_mem_nil, or_false] at hs <;>
    rcases hs with hs | hs <;>
    first
      | (subst hs; trivial)
      | (rcases hs with rfl | rfl | rfl | rfl | rfl | rfl | rfl <;> trivial)
      | (rcases hs with rfl | rfl | rfl | rfl | rfl <;> trivial)
      | (rcases hs with rfl | rfl | rfl | rfl <;> trivial)


theorem safe_initState_factory (orders : List TyreOrder) (uf : ℕ → ℚ)
    (cf : ℕ → ℕ) :
    SafeState uf (initState (expandOrders orders) factoryCapacities uf cf) := by
  unfold initState
  apply safe_foldl_schedule
  refine ⟨rfl, rfl, ?_⟩
  intro q s hs
  have hs' : s ∈ (((expandOrders orders).getD q defaultProc).phase).restOf := hs
  rcases getD_mem_or (expandOrders orders) q defaultProc with hm | hd
  · unfold expandOrders at hm
    rw [List.mem_flatten] at hm
    obtain ⟨l, hl, hpl⟩ := hm
    rw [List.mem_map] at hl
    obtain ⟨o, _, hol⟩ := hl
    rw [← hol] at hpl
    have hp : (expandOrders orders).getD q defaultProc = mkProc o :=
      List.eq_of_mem_replicate hpl
    rw [hp] at hs'
    exact tyreRoute_safe o.tyre_type o.size s hs'
  · rw [hd] at hs'
    exact absurd hs' (by simp [defaultProc, Phase.restOf])


/-- C9: every duration the model can sample is non-negative — station times
for uniform draws in the unit interval, curing times for every defined
lookup, and in particular for the three known tyre types, sizes and
temperature ranges — so a factory run with a unit-interval uniform stream
never sets the InvalidDelay flag. -/
theorem sampled_durations_nonneg :
    (∀ (name : String) (u : ℚ), 0 ≤ u → u ≤ 1 → 0 ≤ get_process_time name u) ∧
    (∀ ty sz tmp : String, ∀ c : ℚ, get_curing_time ty sz tmp = some c →
      0 ≤ c) ∧
    (∀ ty ∈ ["Resilient-SoftBond", "Resilient-Basic", "Press-On"],
     ∀ sz ∈ ["Small", "Medium", "Large"],
     ∀ tmp ∈ ["optimal", "acceptable", "minimum"],
      ∃ c, get_curing_time ty sz tmp = some c ∧ 0 ≤ c) ∧
    (∀ (orders : List TyreOrder) (horizon : ℚ) (fuel : ℕ) (uf : ℕ → ℚ)
        (cf : ℕ → ℕ), UBound uf →
      (run_simulation orders horizon fuel uf cf).invalidDelay = false) := by
  refine ⟨?_, ?_, ?_, ?_⟩
  · intro name u h0 h1
    exact get_process_time_nonneg name h0 h1
  · intro ty sz tmp c h
    exact get_curing_time_nonneg h
  · intro ty hty sz hsz tmp htmp
    simp only [List.mem_cons, List.mem_singleton, List.not_mem_nil,
      or_false] at hty hsz htmp
    rcases hty with rfl | rfl | rfl <;> rcases hsz with rfl | rfl | rfl <;>
      rcases htmp with rfl | rfl | rfl <;>
      exact ⟨_, rfl, by norm_num⟩
  · intro orders horizon fuel uf cf hu
    exact (safe_runLoop (safe_initState_factory orders uf cf) hu fuel).1


theorem sampled_durations_nonneg_witness :
    ((0:ℚ) ≤ 1/2 ∧ (1:ℚ)/2 ≤ 1 ∧ 0 ≤ get_process_time "press" (1/2)) ∧
    (get_curing_time "Press-On" "Small" "optimal" = some 90 ∧ (0:ℚ) ≤ 90) ∧
    (∃ c, get_curing_time "Resilient-SoftBond" "Large" "minimum" = some c ∧
      0 ≤ c) ∧
    (UBound zeroUStream ∧
      (run_simulation [pressOnOrder] 480 200 zeroUStream zeroCStream).invalidDelay =
        false) := by
  have hu : UBound zeroUStream := by
    intro n
    constructor <;> norm_num [zeroUStream]
  refine ⟨⟨by norm_num, by norm_num,
      sampled_durations_nonneg.1 "press" (1/2) (by norm_num) (by norm_num)⟩,
    ⟨by decide, sampled_durations_nonneg.2.1 "Press-On" "Small" "optimal" 90
      (by decide)⟩,
    sampled_durations_nonneg.2.2.1 "Resilient-SoftBond" (by simp) "Large"
      (by simp) "minimum" (by simp),
    hu, sampled_durations_nonneg.2.2.2 [pressOnOrder] 480 200 zeroUStream
      zeroCStream hu⟩


/-! ## Route selection for unknown tyre types -/


theorem procInit_mkProc (o : TyreOrder) : ProcInit (mkProc o) := by
  refine ⟨rfl, ?_, ?_⟩
  · intro s rest rq hx
    exact absurd hx (by simp [mkProc])
  · intro hx
    exact absurd hx (by simp [mkProc])


theorem expandOrders_shape {orders : List TyreOrder} {p : Proc}
    (h : p ∈ expandOrders orders) : ∃ o ∈ orders, p = mkProc o := by
  unfold expandOrders at h
  rw [List.mem_flatten] at h
  obtain ⟨l, hl, hpl⟩ := h
  rw [List.mem_map] at hl
  obtain ⟨o, ho, hol⟩ := hl
  rw [← hol] at hpl
  exact ⟨o, ho, List.eq_of_mem_replicate hpl⟩


theorem scheduleAfter_procs_fn (st : SimState) (d : ℚ) (p : ℕ) :
    (scheduleAfter st d p).procs = st.procs := by
  unfold scheduleAfter
  split <;> rfl


theorem foldl_schedule_procs :
    ∀ (l : List ℕ) (st : SimState),
    (l.foldl (fun st i => scheduleAfter st 0 i) st).procs = st.procs := by
  intro l
  induction l with
  | nil => intro st; rfl
  | cons j t ih =>
      intro st
      rw [List.foldl_cons, ih, scheduleAfter_procs_fn]


theorem initState_procs (procs : List Proc) (caps : List ℕ) (uf : ℕ → ℚ)
    (cf : ℕ → ℕ) :
    (initState procs caps uf cf).procs = fun i => procs.getD i defaultProc := by
  unfold initState
  rw [foldl_schedule_procs]


/-- C10: every order whose tyre type is neither Resilient-SoftBond nor
Resilient-Basic is routed through the Press-On step sequence; if the type
is additionally not Press-On, the curing-time lookup fails, and such a job
never finishes in any factory run. -/
theorem press_on_route_unknown_type :
    (∀ ty : String, ty ≠ "Resilient-SoftBond" → ty ≠ "Resilient-Basic" →
      steps ty = press_on_steps) ∧
    (∀ ty sz tmp : String, ty ≠ "Resilient-SoftBond" →
      ty ≠ "Resilient-Basic" → ty ≠ "Press-On" →
      get_curing_time ty sz tmp = none) ∧
    (∀ (orders : List TyreOrder) (horizon : ℚ) (fuel : ℕ) (uf : ℕ → ℚ)
        (cf : ℕ → ℕ) (pid : ℕ),
      pid < (expandOrders orders).length →
      base_times (((run_simulation orders horizon fuel uf cf).procs pid).tyre_type) =
        none →
      ((run_simulation orders horizon fuel uf cf).procs pid).phase ≠
        Phase.done) := by
  refine ⟨?_, ?_, ?_⟩
  · intro ty h1 h2
    unfold steps press_on_steps
    rw [if_neg h1, if_neg h2]
  · intro ty sz tmp h1 h2 h3
    unfold get_curing_time base_times
    rw [if_neg h1, if_neg h2, if_neg h3]
  · intro orders horizon fuel uf cf pid hlt hnone hdone
    have hinit : ∀ p ∈ expandOrders orders, ProcInit p := by
      intro p hp
      obtain ⟨o, _, rfl⟩ := expandOrders_shape hp
      exact procInit_mkProc o
    have hB := @invB_runLoop horizon
      (initState (expandOrders orders) factoryCapacities uf cf)
      (invB_initState (expandOrders orders) factoryCapacities uf cf hinit) fuel
    obtain ⟨t, _, hj⟩ := runLoop_evolve horizon fuel
      (initState (expandOrders orders) factoryCapacities uf cf) pid
    have hp0mem : (expandOrders orders).getD pid defaultProc ∈
        expandOrders orders := by
      rw [List.getD_eq_getElem _ defaultProc hlt]
      exact List.getElem_mem hlt
    obtain ⟨o, _, hpo⟩ := expandOrders_shape hp0mem
    have hjp : sameJob
        ((runLoop horizon fuel
          (initState (expandOrders orders) factoryCapacities uf cf)).procs pid)
        ((expandOrders orders).getD pid defaultProc) := by
      have := hj
      rw [initState_procs] at this
      exact this
    set fp := (runLoop horizon fuel
      (initState (expandOrders orders) factoryCapacities uf cf)).procs pid with hfp
    have hty : fp.tyre_type = o.tyre_type := by
      rw [hjp.2.1, hpo]
      rfl
    have hsz : fp.size = o.size := by
      rw [hjp.2.2.1, hpo]
      rfl
    have hrt : fp.route = tyreRoute o.tyre_type o.size := by
      rw [hjp.2.2.2, hpo]
      rfl
    have hlastq : fp.route.getLast? =
        some ⟨8, "curing", DurSpec.curing o.tyre_type o.size⟩ := by
      rw [hrt]
      unfold tyreRoute
      rw [List.getLast?_append_cons]
      rfl
    have hdd := hB.2.2.2.1 pid ⟨8, "curing", DurSpec.curing o.tyre_type o.size⟩
      hdone hlastq
    unfold durDefined at hdd
    rw [show ((run_simulation orders horizon fuel uf cf).procs pid).tyre_type =
      fp.tyre_type from rfl, hty] at hnone
    have hdd1 : (base_times o.tyre_type).isSome = true ∧
        (size_adjustments o.size).isSome = true := hdd
    rw [hnone] at hdd1
    exact absurd hdd1.1 (by simp)



theorem press_on_route_unknown_type_witness :
    ("X" ≠ "Resilient-SoftBond" ∧ "X" ≠ "Resilient-Basic" ∧
      "X" ≠ "Press-On" ∧ steps "X" = press_on_steps ∧
      get_curing_time "X" "Small" "optimal" = none) ∧
    (0 < (expandOrders [xOrder]).length ∧
      base_times
        (((run_simulation [xOrder] 480 100 zeroUStream zeroCStream).procs 0).tyre_type) =
        none ∧
      ((run_simulation [xOrder] 480 100 zeroUStream zeroCStream).procs 0).phase ≠
        Phase.done) := by
  have h1 : "X" ≠ "Resilient-SoftBond" := by decide
  have h2 : "X" ≠ "Resilient-Basic" := by decide
  have h3 : "X" ≠ "Press-On" := by decide
  have hlt : 0 < (expandOrders [xOrder]).length := by decide
  have hnone : base_times
      (((run_simulation [xOrder] 480 100 zeroUStream zeroCStream).procs 0).tyre_type) =
      none := by decide
  exact ⟨⟨h1, h2, h3, press_on_route_unknown_type.1 "X" h1 h2,
      press_on_route_unknown_type.2.1 "X" "Small" "optimal" h1 h2 h3⟩,
    hlt, hnone,
    press_on_route_unknown_type.2.2 [xOrder] 480 100 zeroUStream zeroCStream 0
      hlt hnone⟩


/-! ## Turnaround aggregation -/


theorem lookupKey_addToGroup (m : List (String × List ℚ)) (k k' : String)
    (v : ℚ) :
    lookupKey (addToGroup m k v) k' =
      if k' = k then some ((lookupKey m k).getD [] ++ [v])
      else lookupKey m k' := by
  induction m with
  | nil =>
      by_cases h : k' = k
      · subst h
        simp [addToGroup, lookupKey]
      · have h2 : ¬k = k' := fun he => h he.symm
        simp [addToGroup, lookupKey, h, h2]
  | cons kv rest ih =>
      rcases kv with ⟨k1, vs⟩
      by_cases h1 : k1 = k <;> by_cases h2 : k1 = k'
      · subst h1
        subst h2
        simp [addToGroup, lookupKey]
      · subst h1
        have h3 : ¬k' = k1 := fun he => h2 he.symm
        simp [addToGroup, lookupKey, h2, h3]
      · subst h2
        have h4 : ¬k1 = k := h1
        simp [addToGroup, lookupKey, h1, h4]
      · have h3 : ¬k' = k1 := fun he => h2 he.symm
        simp [addToGroup, lookupKey, h1, h2, h3, ih]


theorem type_stats_fold (l : List ProductionStats) :
    ∀ (m : List (String × List ℚ)) (k : String),
    lookupKey
        (l.foldl (fun m s => addToGroup m (kindOf s.pid) s.total_production_time) m)
        k =
      (match lookupKey m k with
       | some vs => some (vs ++ ((l.filter (fun s => kindOf s.pid = k)).map
            ProductionStats.total_production_time))
       | none =>
          if ((l.filter (fun s => kindOf s.pid = k)).map
              ProductionStats.total_production_time) = [] then none
          else some ((l.filter (fun s => kindOf s.pid = k)).map
              ProductionStats.total_production_time)) := by
  induction l with
  | nil =>
      intro m k
      rcases h : lookupKey m k with _ | vs <;> simp [h]
  | cons s t ih =>
      intro m k
      rw [List.foldl_cons, ih, lookupKey_addToGroup]
      by_cases hk : kindOf s.pid = k
      · rw [if_pos hk.symm]
        have hf : (s :: t).filter (fun s => kindOf s.pid = k) =
            s :: t.filter (fun s => kindOf s.pid = k) := by
          simp [List.filter_cons, hk]
        rw [hf]
        rcases h : lookupKey m k with _ | vs <;> simp [h, hk]
      · rw [if_neg (fun he : k = kindOf s.pid => hk he.symm)]
        have hf : (s :: t).filter (fun s => kindOf s.pid = k) =
            t.filter (fun s => kindOf s.pid = k) := by
          simp [List.filter_cons, hk]
        rw [hf]


theorem lookupKey_type_averages (ts : List (String × List ℚ)) (k : String) :
    lookupKey (type_averages ts) k =
      (lookupKey ts k).map
        (fun vs => (⟨vs.length, pyMean vs, pyMin vs, pyMax vs⟩ : TypeAgg)) := by
  induction ts with
  | nil => rfl
  | cons kv rest ih =>
      rcases kv with ⟨k1, vs⟩
      by_cases h : k1 = k
      · subst h
        simp [type_averages, lookupKey]
      · simp only [type_averages, List.map_cons, lookupKey, if_neg h]
        exact ih


/-- C8: every recorded total production time equals completion time minus
creation time, and for each tyre-type key the `type_averages` aggregate
reports the count, mean, min and max of exactly the recorded turnaround
values of completed jobs of that kind. -/
theorem turnaround_aggregates :
    (∀ (procs : List Proc) (caps : List ℕ) (uf : ℕ → ℚ) (cf : ℕ → ℕ)
        (horizon : ℚ) (fuel : ℕ),
      (∀ p ∈ procs, ProcInit p) →
      ∀ s ∈ (runLoop horizon fuel (initState procs caps uf cf)).production_stats,
        s.total_production_time = s.end_time - s.start_time) ∧
    (∀ (l : List ProductionStats) (k : String),
      lookupKey (type_averages (type_stats l)) k =
        (if ((l.filter (fun s => kindOf s.pid = k)).map
            ProductionStats.total_production_time) = [] then none
         else some
          ⟨((l.filter (fun s => kindOf s.pid = k)).map
              ProductionStats.total_production_time).length,
           pyMean ((l.filter (fun s => kindOf s.pid = k)).map
              ProductionStats.total_production_time),
           pyMin ((l.filter (fun s => kindOf s.pid = k)).map
              ProductionStats.total_production_time),
           pyMax ((l.filter (fun s => kindOf s.pid = k)).map
              ProductionStats.total_production_time)⟩)) := by
  constructor
  · intro procs caps uf cf horizon fuel hinit s hs
    exact (@invB_runLoop horizon (initState procs caps uf cf)
      (invB_initState procs caps uf cf hinit) fuel).2.2.2.2 s hs
  · intro l k
    unfold type_stats
    rw [lookupKey_type_averages, type_stats_fold l [] k]
    have h0 : lookupKey ([] : List (String × List ℚ)) k = none := rfl
    rw [h0]
    by_cases hf : ((l.filter (fun s => kindOf s.pid = k)).map
        ProductionStats.total_production_time) = [] <;>
      simp [hf]



theorem turnaround_aggregates_witness :
    ((∀ p ∈ [scenJob 10, scenJob 10], ProcInit p) ∧
     (∀ s ∈ (runLoop 100 20 (initState [scenJob 10, scenJob 10] [1]
          zeroUStream zeroCStream)).production_stats,
        s.total_production_time = s.end_time - s.start_time)) ∧
    lookupKey (type_averages (type_stats c8list)) "101" =
      some ⟨2, 8, 6, 10⟩ := by
  have hinit : ∀ p ∈ [scenJob 10, scenJob 10], ProcInit p := by
    intro p hp
    rcases List.mem_cons.mp hp with rfl | hp
    · exact procInit_scenJob 10
    · rw [List.mem_singleton] at hp
      exact hp ▸ procInit_scenJob 10
  refine ⟨⟨hinit, turnaround_aggregates.1 [scenJob 10, scenJob 10] [1]
      zeroUStream zeroCStream 100 20 hinit⟩, ?_⟩
  rw [turnaround_aggregates.2 c8list "101"]
  decide



theorem insertEvent_append_zero {e : Event} (he : e.due = 0) :
    ∀ {l : List Event}, (∀ f ∈ l, f.due = 0) → insertEvent e l = l ++ [e] := by
  intro l
  induction l with
  | nil => intro _; rfl
  | cons f fs ih =>
      intro hall
      unfold insertEvent
      rw [if_neg ?_]
      · rw [ih (fun g hg => hall g (List.mem_cons_of_mem f hg))]
        rfl
      · rw [he, hall f (by simp)]
        simp


/-- Scheduling the processes `s, s+1, …, s+n-1` with zero delay, starting
from sequence counter `s`, appends their creation events in order. -/
theorem foldl_schedule_range' : ∀ (n s : ℕ) (st : SimState),
    st.now = 0 → st.nextSeq = s → (∀ f ∈ st.events, f.due = 0) →
    (List.range' s n).foldl (fun st i => scheduleAfter st 0 i) st =
      { st with
        events := st.events ++ (List.range' s n).map (fun i => ⟨0, i, i⟩),
        nextSeq := s + n } := by
  intro n
  induction n with
  | zero =>
      intro s st hnow hseq hz
      ext <;> simp [hseq]
  | succ n ih =>
      intro s st hnow hseq hz
      rw [List.range'_succ, List.foldl_cons]
      have hsch : scheduleAfter st 0 s =
          { st with events := st.events ++ [⟨0, s, s⟩], nextSeq := s + 1 } := by
        unfold scheduleAfter
        rw [if_neg (by norm_num)]
        have he : ({ due := st.now + 0, seq := st.nextSeq, pid := s } : Event) =
            ⟨0, s, s⟩ := by
          rw [hnow, hseq]
          norm_num
        rw [he, insertEvent_append_zero rfl hz, hseq]
      have hzz : ∀ f ∈ st.events ++ [(⟨0, s, s⟩ : Event)], f.due = 0 := by
        intro f hf
        rcases List.mem_append.mp hf with hf | hf
        · exact hz f hf
        · rw [List.mem_singleton] at hf
          rw [hf]
      have hih := ih (s + 1)
        { st with events := st.events ++ [⟨0, s, s⟩], nextSeq := s + 1 }
        hnow rfl hzz
      rw [hsch, hih]
      ext <;> simp <;> omega



theorem initState_scenario (N : ℕ) (d : ℚ) :
    initState (List.replicate N (scenJob d)) [1] zeroUStream zeroCStream =
      T0State N d := by
  unfold initState
  rw [show List.range (List.replicate N (scenJob d)).length =
    List.range' 0 N by rw [List.range_eq_range']; simp]
  rw [foldl_schedule_range' N 0 _ rfl rfl (by simp)]
  unfold T0State
  ext
  all_goals simp [List.getD, List.getElem?_replicate]
  all_goals split <;> rfl


/-- One unfolding of the driver loop. -/
theorem runLoop_step {horizon : ℚ} {st : SimState} {e : Event}
    {rest : List Event} (hf1 : st.invalidDelay = false)
    (hf2 : st.notHeld = false) (hev : st.events = e :: rest)
    (hle : e.due ≤ horizon) (f : ℕ) :
    runLoop horizon (f + 1) st =
      runLoop horizon f (handleEvent { st with now := e.due, events := rest } e.pid) := by
  conv_lhs => unfold runLoop
  rw [hf1, hf2, hev]
  simp [hle]


/-- The loop halts on an empty event queue. -/
theorem runLoop_nil {horizon : ℚ} {st : SimState} (hev : st.events = [])
    (f : ℕ) : runLoop horizon f st = st := by
  cases f with
  | zero => rfl
  | succ n =>
      unfold runLoop
      rw [hev]
      split <;> rfl



theorem insertEvent_append_pos {e : Event} (he : 0 < e.due) :
    ∀ {l : List Event}, (∀ f ∈ l, f.due = 0) → insertEvent e l = l ++ [e] := by
  intro l
  induction l with
  | nil => intro _; rfl
  | cons f fs ih =>
      intro hall
      unfold insertEvent
      rw [if_neg ?_]
      · rw [ih (fun g hg => hall g (List.mem_cons_of_mem f hg))]
        rfl
      · rw [hall f (by simp)]
        exact not_lt.mpr (le_of_lt he)


theorem T0_step (N : ℕ) (d horizon : ℚ) (f : ℕ) (hN : 0 < N)
    (hh : 0 ≤ horizon) (hd : 0 < d) :
    runLoop horizon (f + 1) (T0State N d) = runLoop horizon f (TState N d 1) := by
  have hev : (T0State N d).events =
      (⟨0, 0, 0⟩ : Event) :: ((List.range' 1 (N - 1)).map (fun i => ⟨0, i, i⟩)) := by
    show (List.range' 0 N).map _ = _
    rw [show N = (N - 1) + 1 by omega, List.range'_succ]
    rfl
  rw [runLoop_step rfl rfl hev hh f]
  congr 1
  have hins : insertEvent ⟨d, N, 0⟩
      ((List.range' 1 (N - 1)).map (fun i => ⟨0, i, i⟩)) =
      ((List.range' 1 (N - 1)).map (fun i => ⟨0, i, i⟩)) ++ [⟨d, N, 0⟩] := by
    refine insertEvent_append_pos hd ?_
    intro g hg
    rw [List.mem_map] at hg
    obtain ⟨i, _, hi⟩ := hg
    rw [← hi]
  apply SimState.ext <;> (try funext i) <;>
    simp [handleEvent, getProc, setProc, setPhase, setRes, getRes, recordWait,
      startStages, afterGrant, scheduleAfter, sampleDur, Resource.request,
      Resource.mk0, singleStage, scenJob, svcJob, waitJob, defaultProc,
      T0State, TState, upd, hN, hins, not_lt.mpr (le_of_lt hd)] <;>
    (try (rcases i with _ | n <;> simp [s0stage]))


theorem T_step (N : ℕ) (d horizon : ℚ) (f j : ℕ) (hj : 1 ≤ j) (hjN : j < N)
    (hh : 0 ≤ horizon) (hd : 0 < d) :
    runLoop horizon (f + 1) (TState N d j) =
      runLoop horizon f (TState N d (j + 1)) := by
  have hj0 : ¬(j = 0) := by omega
  have hev : (TState N d j).events =
      (⟨0, j, j⟩ : Event) ::
        ((List.range' (j + 1) (N - (j + 1))).map (fun i => ⟨0, i, i⟩) ++
          [⟨d, N, 0⟩]) := by
    show (List.range' j (N - j)).map _ ++ [(⟨d, N, 0⟩ : Event)] = _
    rw [show N - j = (N - (j + 1)) + 1 by omega, List.range'_succ]
    rfl
  rw [runLoop_step rfl rfl hev hh f]
  congr 1
  have hq : ((List.range' 1 (j - 1)).map (fun i => (⟨i, i, 0⟩ : WaitReq))) ++
      [⟨j, j, 0⟩] = (List.range' 1 ((j + 1) - 1)).map (fun i => ⟨i, i, 0⟩) := by
    rw [show (j + 1) - 1 = (j - 1) + 1 by omega, List.range'_1_concat,
      List.map_append, show 1 + (j - 1) = j by omega]
    rfl
  apply SimState.ext <;> (try funext i) <;>
    simp [handleEvent, getProc, setProc, setPhase, setRes, getRes, recordWait,
      startStages, afterGrant, scheduleAfter, sampleDur, Resource.request,
      Resource.mk0, singleStage, scenJob, svcJob, waitJob, defaultProc,
      TState, upd, hj0, hjN, lt_irrefl, hq, s0stage] <;>
    (try (split_ifs <;> first | rfl | omega | simp_all [s0stage]))



theorem TN_eq_S1 (N : ℕ) (d : ℚ) (hN : 1 ≤ N) : TState N d N = SState N d 1 := by
  apply SimState.ext <;> (try funext i) <;>
    simp [TState, SState, svcJob, waitJob, doneJob, statOf, Resource.mk0] <;>
    (try (split_ifs <;> first | rfl | omega | simp_all)) <;>
    omega


theorem S_step (N : ℕ) (d horizon : ℚ) (f k : ℕ) (hk : 1 ≤ k) (hkN : k < N)
    (hd : 0 < d) (hkd : (k : ℚ) * d ≤ horizon) :
    runLoop horizon (f + 1) (SState N d k) =
      runLoop horizon f (UState N d k) := by
  have hev : (SState N d k).events =
      (⟨(k : ℚ) * d, N + 2 * k - 2, k - 1⟩ : Event) :: [] := rfl
  rw [runLoop_step rfl rfl hev hkd f]
  congr 1
  have hq1 : ((List.range' k (N - k)).map (fun i => (⟨i, i, 0⟩ : WaitReq))) =
      ⟨k, k, 0⟩ :: (List.range' (k + 1) (N - (k + 1))).map (fun i => ⟨i, i, 0⟩) := by
    rw [show N - k = (N - (k + 1)) + 1 by omega, List.range'_succ]
    rfl
  have hre : (List.replicate k (0 : ℚ)) ++ [0] = List.replicate (k + 1) 0 := by
    rw [List.replicate_succ']
  have hr1 : List.range k = List.range (k - 1) ++ [k - 1] := by
    rw [show k = (k - 1) + 1 by omega, List.range_succ]
    simp
  have hcast : ((k - 1 : ℕ) : ℚ) + 1 = (k : ℚ) := by
    push_cast [Nat.cast_sub hk]
    ring
  have hstats : (List.range (k - 1)).map (statOf d) ++
      [(⟨k - 1, "job", 0, (k : ℚ) * d, [("s", ((k - 1 : ℕ) : ℚ) * d)],
        (k : ℚ) * d⟩ : ProductionStats)] =
      (List.range k).map (statOf d) := by
    rw [hr1, List.map_append]
    congr 1
    simp [statOf, hcast]
  apply SimState.ext <;> (try funext i) <;>
    simp [handleEvent, getProc, setProc, setPhase, setRes, getRes, recordWait,
      startStages, afterGrant, scheduleAfter, sampleDur, Resource.release,
      Resource.removeHolder, Resource.grantHead, Resource.mk0,
      insertEvent, singleStage, scenJob, svcJob, waitJob, doneJob, defaultProc,
      s0stage, SState, UState, upd, lt_irrefl, hq1, hre, hstats] <;>
    (try (split_ifs <;> first | rfl | omega | simp_all)) <;>
    first
      | omega
      | skip


theorem U_step (N : ℕ) (d horizon : ℚ) (f k : ℕ) (hk : 1 ≤ k) (hkN : k < N)
    (hd : 0 < d) (hkd : (k : ℚ) * d ≤ horizon) :
    runLoop horizon (f + 1) (UState N d k) =
      runLoop horizon f (SState N d (k + 1)) := by
  have hev : (UState N d k).events =
      (⟨(k : ℚ) * d, N + 2 * k - 1, k⟩ : Event) :: [] := rfl
  rw [runLoop_step rfl rfl hev hkd f]
  congr 1
  have hc1 : (k : ℚ) * d + d = ((k + 1 : ℕ) : ℚ) * d := by
    push_cast
    ring
  have hc2 : ((k : ℚ)) * d = (((k + 1 : ℕ) : ℚ) - 1) * d := by
    push_cast
    ring
  apply SimState.ext <;> (try funext i) <;>
    simp [handleEvent, getProc, setProc, setPhase, setRes, getRes, recordWait,
      startStages, afterGrant, scheduleAfter, sampleDur,
      insertEvent, singleStage, scenJob, svcJob, waitJob, doneJob, defaultProc,
      s0stage, Resource.mk0, SState, UState, upd, lt_irrefl, hkN,
      not_lt.mpr (le_of_lt hd)] <;>
    (try (split_ifs <;> first | rfl | omega | simp_all)) <;>
    first
      | omega
      | (constructor <;> first | omega | (push_cast ; ring))
      | (push_cast ; ring)
      | skip


theorem SN_step (N : ℕ) (d horizon : ℚ) (f : ℕ) (hN : 1 ≤ N) (hd : 0 < d)
    (hNd : (N : ℚ) * d ≤ horizon) :
    (runLoop horizon (f + 1) (SState N d N)).production_stats =
      (List.range N).map (statOf d) := by
  have hev : (SState N d N).events =
      (⟨(N : ℚ) * d, N + 2 * N - 2, N - 1⟩ : Event) :: [] := rfl
  rw [runLoop_step rfl rfl hev hNd f]
  have hr1 : List.range N = List.range (N - 1) ++ [N - 1] := by
    rw [show N = (N - 1) + 1 by omega, List.range_succ]
    simp
  have hcast : ((N - 1 : ℕ) : ℚ) + 1 = (N : ℚ) := by
    push_cast [Nat.cast_sub hN]
    ring
  have hstats : (List.range (N - 1)).map (statOf d) ++
      [(⟨N - 1, "job", 0, (N : ℚ) * d, [("s", ((N - 1 : ℕ) : ℚ) * d)],
        (N : ℚ) * d⟩ : ProductionStats)] =
      (List.range N).map (statOf d) := by
    rw [hr1, List.map_append]
    congr 1
    simp [statOf, hcast]
  have hFS : handleEvent { SState N d N with now := (N : ℚ) * d, events := [] }
      (N - 1) =
      { now := (N : ℚ) * d, events := [], nextSeq := N + 2 * N - 1,
        nextReq := N,
        resources := fun i =>
          if i = 0 then ⟨1, [], [], List.replicate N 0⟩ else Resource.mk0 0,
        nres := 1,
        procs := fun i => if i < N then doneJob d i else defaultProc,
        nprocs := N,
        production_stats := (List.range N).map (statOf d),
        uf := zeroUStream, uidx := 0, cf := zeroCStream, cidx := 0,
        invalidDelay := false, notHeld := false } := by
    apply SimState.ext <;> (try funext i) <;>
      simp [handleEvent, getProc, setProc, setPhase, setRes, getRes, recordWait,
        startStages, afterGrant, scheduleAfter, sampleDur, Resource.release,
        Resource.removeHolder, Resource.grantHead, Resource.mk0,
        insertEvent, singleStage, scenJob, svcJob, waitJob, doneJob,
        defaultProc, s0stage, SState, upd, lt_irrefl, hstats] <;>
      (try (split_ifs <;> first | rfl | omega | simp_all)) <;>
      first
        | omega
        | skip
  rw [hFS, runLoop_nil rfl f]


theorem T_loop (N : ℕ) (d horizon : ℚ) :
    ∀ (m j f : ℕ), 1 ≤ j → j + m = N → 0 < d → 0 ≤ horizon →
    runLoop horizon (m + f) (TState N d j) = runLoop horizon f (TState N d N) := by
  intro m
  induction m with
  | zero =>
      intro j f h1 h2 hd hh
      have hj : j = N := by omega
      subst hj
      rw [Nat.zero_add]
  | succ m ih =>
      intro j f h1 h2 hd hh
      have hjN : j < N := by omega
      rw [show m + 1 + f = (m + f) + 1 from by omega]
      rw [T_step N d horizon (m + f) j h1 hjN hh hd]
      exact ih (j + 1) f (by omega) (by omega) hd hh


theorem S_loop (N : ℕ) (d horizon : ℚ) :
    ∀ (m k f : ℕ), 1 ≤ k → k + m = N → 0 < d → (N : ℚ) * d ≤ horizon →
    (runLoop horizon (2 * m + (f + 1)) (SState N d k)).production_stats =
      (List.range N).map (statOf d) := by
  intro m
  induction m with
  | zero =>
      intro k f h1 h2 hd hNd
      have hk : k = N := by omega
      subst hk
      rw [show 2 * 0 + (f + 1) = f + 1 from by omega]
      exact SN_step k d horizon f h1 hd hNd
  | succ m ih =>
      intro k f h1 h2 hd hNd
      have hkN : k < N := by omega
      have hkd : (k : ℚ) * d ≤ horizon := by
        have h3 : (k : ℚ) ≤ (N : ℚ) := by
          exact_mod_cast (by omega : k ≤ N)
        nlinarith
      rw [show 2 * (m + 1) + (f + 1) = (2 * m + (f + 1) + 1) + 1 from by omega]
      rw [S_step N d horizon (2 * m + (f + 1) + 1) k h1 hkN hd hkd]
      rw [show 2 * m + (f + 1) + 1 = (2 * m + (f + 1)) + 1 from by omega]
      rw [U_step N d horizon (2 * m + (f + 1)) k h1 hkN hd hkd]
      exact ih (k + 1) f (by omega) (by omega) hd hNd


/-- C3: N single-stage jobs of deterministic duration d on a capacity-1
station, all created at time 0, complete at exactly d, 2d, …, N·d, job k
waiting k·d before service. -/
theorem conservation (N : ℕ) (d horizon : ℚ) (fuel : ℕ) (hd : 0 < d)
    (hhor : (N : ℚ) * d ≤ horizon) (hfuel : 3 * N ≤ fuel) :
    (runLoop horizon fuel (initState (List.replicate N (scenJob d)) [1]
      zeroUStream zeroCStream)).production_stats =
    (List.range N).map (statOf d) := by
  rw [initState_scenario]
  rcases Nat.eq_zero_or_pos N with hN | hN
  · subst hN
    rw [runLoop_nil rfl fuel]
    rfl
  · have hh : 0 ≤ horizon := by
      have hNq : (0 : ℚ) < (N : ℚ) := by exact_mod_cast hN
      nlinarith
    have hfe : fuel = ((N - 1) + (2 * (N - 1) + ((fuel - 3 * N + 1) + 1))) + 1 := by
      omega
    rw [hfe]
    rw [T0_step N d horizon _ hN hh hd]
    rw [T_loop N d horizon (N - 1) 1 _ le_rfl (by omega) hd hh]
    rw [TN_eq_S1 N d hN]
    exact S_loop N d horizon (N - 1) 1 (fuel - 3 * N + 1) le_rfl (by omega) hd hhor


theorem conservation_witness :
    ((0 : ℚ) < 10 ∧ ((2 : ℕ) : ℚ) * 10 ≤ 20 ∧ 3 * 2 ≤ 6) ∧
    (runLoop 20 6 (initState (List.replicate 2 (scenJob 10)) [1]
      zeroUStream zeroCStream)).production_stats =
      [⟨0, "job", 0, 10, [("s", 0)], 10⟩, ⟨1, "job", 0, 20, [("s", 10)], 20⟩] := by
  have h1 : (0 : ℚ) < 10 := by norm_num
  have h2 : ((2 : ℕ) : ℚ) * 10 ≤ 20 := by norm_num
  have h3 : 3 * 2 ≤ 6 := by norm_num
  refine ⟨⟨h1, h2, h3⟩, ?_⟩
  rw [conservation 2 10 20 6 h1 h2 h3]
  decide


end MTFP
